import Mathlib

/-!
# Verification of the BAG layout core (`bag/layout/core.py`)

Shallow embedding of the via-array placement optimizer
(`TechInfo.get_best_via_array`, `TechInfo._via_better`, `TechInfo.get_via_info`)
and the resistor dimensioning algorithm (`TechInfo.design_resistor`).

Modelling conventions:
* resolution-unit integer quantities are `ℤ`;
* Python floats are modelled as exact rationals `ℚ`; `float('inf')` EM limits
  are modelled as `⊤ : WithTop ℚ`;
* Python's `round` (banker's rounding, half to even) is `pyRound`;
* Python's floor division `//` is `Int.fdiv`;
* a Python function that may raise `ValueError` (the design-rule provider
  lookups) is modelled as returning `Option`.
-/

namespace BagCore

/-- Python's `round` on an exact rational: round half to even. -/
def pyRound (q : ℚ) : ℤ :=
  let f := ⌊q⌋
  if q - (f : ℚ) < 1/2 then f
  else if 1/2 < q - (f : ℚ) then f + 1
  else if f % 2 = 0 then f else f + 1

/-- A wire direction, `'x'` or `'y'` in the source. -/
inductive Dir where
  | x : Dir
  | y : Dir
deriving DecidableEq, Repr

/-- The tuple returned by `get_via_drc_info(vname, vtype, mtype, mw, is_bot)`:
`(sp, sp2_list, sp3_list, dim, enc_list, arr_enc, arr_test)`.  `arr_test` is
the optional array predicate, called as `arr_test(ny, nx)` in the source. -/
structure ViaDrcInfo where
  sp : ℤ × ℤ
  sp2List : Option (List (ℤ × ℤ))
  sp3List : Option (List (ℤ × ℤ))
  dim : ℤ × ℤ
  enc : List (ℤ × ℤ)
  arrEnc : List (ℤ × ℤ)
  arrTest : Option (ℤ → ℤ → Bool)

/-- Lines 674-675: `if sp2_list is None: sp2_list = [sp]`. -/
def defaultSp2 (sp : ℤ × ℤ) (sp2List : Option (List (ℤ × ℤ))) : List (ℤ × ℤ) :=
  sp2List.getD [sp]

/-- Lines 676-677: `if sp3_list is None: sp3_list = sp2_list`
(the already-defaulted `sp2_list`). -/
def defaultSp3 (sp2 : List (ℤ × ℤ)) (sp3List : Option (List (ℤ × ℤ))) : List (ℤ × ℤ) :=
  sp3List.getD sp2

/-- Lines 698-705: the spacing candidates tried for an `(nx, ny)` configuration.
`sp2` and `sp3` are the already-defaulted lists. -/
def spComboFor (sp : ℤ × ℤ) (sp2 sp3 : List (ℤ × ℤ)) (nx ny : ℤ) : List (ℤ × ℤ) :=
  if nx = 2 ∧ ny = 2 then sp2
  else if 1 < nx ∧ 1 < ny then sp3
  else [sp]

/-- Lines 678-682: the elementwise spacing floor, starting from the base rule
and folding the (defaulted) `sp2_list` and `sp3_list`. -/
def spFloor (sp : ℤ × ℤ) (sp2 sp3 : List (ℤ × ℤ)) : ℤ × ℤ :=
  (sp2 ++ sp3).foldl (fun m p => (min m.1 p.1, min m.2 p.2)) sp

/-- `q < p` in the reversed lexicographic order used by
`sorted(nxy_list, reverse=True)`: `p` sorts before or equal to `q`. -/
def descTriple (p q : ℤ × ℤ × ℤ) : Prop :=
  q.1 < p.1 ∨ (q.1 = p.1 ∧ (q.2.1 < p.2.1 ∨ (q.2.1 = p.2.1 ∧ q.2.2 ≤ p.2.2)))

instance : DecidableRel descTriple := fun p q =>
  inferInstanceAs (Decidable (q.1 < p.1 ∨ (q.1 = p.1 ∧ (q.2.1 < p.2.1 ∨ (q.2.1 = p.2.1 ∧ q.2.2 ≤ p.2.2)))))

instance : IsTotal (ℤ × ℤ × ℤ) descTriple :=
  ⟨by intro a b; unfold descTriple; omega⟩

instance : IsTrans (ℤ × ℤ × ℤ) descTriple :=
  ⟨by intro a b c; unfold descTriple; omega⟩

/-- Python's `range(1, n + 1)` as a list of integers. -/
def intRange1 (n : ℤ) : List ℤ :=
  (List.range n.toNat).map fun (k : ℕ) => (k : ℤ) + 1

/-- Line 690: `[(a * b, a, b) for a in range(1, nx_max + 1) for b in range(1, ny_max + 1)]`. -/
def nxyRaw (nxMax nyMax : ℤ) : List (ℤ × ℤ × ℤ) :=
  (intRange1 nxMax).flatMap fun a =>
    (intRange1 nyMax).map fun b => (a * b, a, b)

/-- Line 691: `sorted(nxy_list, reverse=True)`. -/
def nxyList (nxMax nyMax : ℤ) : List (ℤ × ℤ × ℤ) :=
  List.insertionSort descTriple (nxyRaw nxMax nyMax)

/-- Lines 720-749: the per-layer enclosure check.  For the layer's direction
it checks every enclosure candidate, keeps the minimum passing extension
dimension, and on success returns the metal `(width, height)` in resolution
units (the perpendicular dimension clamped up to the box's own extent). -/
def encPass (extend : Bool) (wBox hBox : ℤ) (mdir : Dir) (wArr hArr : ℤ)
    (enc : ℤ × ℤ) : Prop :=
  (if mdir = Dir.y then enc.1 else enc.2) * 2 + (if mdir = Dir.y then wArr else hArr) ≤
      (if mdir = Dir.y then wBox else hBox) ∧
  (extend = true ∨
    (if mdir = Dir.y then hArr else wArr) + 2 * (if mdir = Dir.y then enc.2 else enc.1) ≤
      (if mdir = Dir.y then hBox else wBox))

instance (extend : Bool) (wBox hBox : ℤ) (mdir : Dir) (wArr hArr : ℤ) (enc : ℤ × ℤ) :
    Decidable (encPass extend wBox hBox mdir wArr hArr enc) :=
  inferInstanceAs (Decidable (_ ∧ _))

/-- The extension dimension `cur_ext_dim = ext_dim + 2 * enc[1 - enc_idx]`
(line 735) an enclosure candidate would impose. -/
def curExt (mdir : Dir) (wArr hArr : ℤ) (enc : ℤ × ℤ) : ℤ :=
  (if mdir = Dir.y then hArr else wArr) + 2 * (if mdir = Dir.y then enc.2 else enc.1)

/-- The `min_ext_dim` accumulation loop of lines 733-740, over the enclosure
candidates that pass the test of lines 735-737. -/
def minExtFold (extend : Bool) (wBox hBox : ℤ) (mdir : Dir) (wArr hArr : ℤ)
    (l : List (ℤ × ℤ)) (acc : Option ℤ) : Option ℤ :=
  l.foldl (fun (acc : Option ℤ) enc =>
    if encPass extend wBox hBox mdir wArr hArr enc then
      match acc with
      | none => some (curExt mdir wArr hArr enc)
      | some m =>
        if m > curExt mdir wArr hArr enc then some (curExt mdir wArr hArr enc) else some m
    else acc) acc

def layerMdim (extend : Bool) (wBox hBox : ℤ) (mdir : Dir) (totEnc : List (ℤ × ℤ))
    (wArr hArr : ℤ) : Option (ℤ × ℤ) :=
  match minExtFold extend wBox hBox mdir wArr hArr totEnc none with
  | none => none
  | some m =>
    if mdir = Dir.y then some (wBox, max m hBox) else some (max m wBox, hBox)

/-- The per-via-type optimum: `(opt_nxy, opt_mdim_list, opt_adim, opt_sp)`. -/
structure PerTypeOpt where
  nxy : ℤ × ℤ
  mdimList : List (ℤ × ℤ)
  adim : ℤ × ℤ
  vsp : ℤ × ℤ
deriving DecidableEq, Repr

/-- Lines 716-718: the layer's full enclosure candidate list — the array
enclosure list is appended when `arr_test is not None and arr_test(ny, nx)`. -/
def totEncFor (enc arrEnc : List (ℤ × ℤ)) (arrTest : Option (ℤ → ℤ → Bool))
    (nx ny : ℤ) : List (ℤ × ℤ) :=
  match arrTest with
  | some f => if f ny nx then enc ++ arrEnc else enc
  | none => enc

/-- Lines 707-757: check one `(nx, ny, spx, spy)` combination.  The array
enclosure list is appended when the layer's `arr_test(ny, nx)` holds; both
layers must find a passing enclosure. -/
def tryCombo (extend : Bool) (wBox hBox : ℤ) (botDir topDir : Dir)
    (encB arrEncB : List (ℤ × ℤ)) (arrTestB : Option (ℤ → ℤ → Bool))
    (encT arrEncT : List (ℤ × ℤ)) (arrTestT : Option (ℤ → ℤ → Bool))
    (dim : ℤ × ℤ) (nx ny spx spy : ℤ) : Option PerTypeOpt :=
  match layerMdim extend wBox hBox botDir (totEncFor encB arrEncB arrTestB nx ny)
      (nx * (spx + dim.1) - spx) (ny * (spy + dim.2) - spy) with
  | none => none
  | some mB =>
    match layerMdim extend wBox hBox topDir (totEncFor encT arrEncT arrTestT nx ny)
        (nx * (spx + dim.1) - spx) (ny * (spy + dim.2) - spy) with
    | none => none
    | some mT =>
      some ⟨(nx, ny), [mB, mT],
        (nx * (spx + dim.1) - spx, ny * (spy + dim.2) - spy), (spx, spy)⟩

/-- Lines 673-760: the search over `(nx, ny)` configurations (descending by
count) and spacing candidates for a single via type, stopping at the first
success.  Spacing, dimension, `sp2`/`sp3` come from the bottom-layer DRC info,
enclosure data from each layer's own info. -/
def perTypeSearch (extend : Bool) (wBox hBox : ℤ) (botDir topDir : Dir)
    (infoB infoT : ViaDrcInfo) : Option PerTypeOpt :=
  let sp := infoB.sp
  let sp2 := defaultSp2 sp infoB.sp2List
  let sp3 := defaultSp3 sp2 infoB.sp3List
  let spMin := spFloor sp sp2 sp3
  let nxMax := Int.fdiv (wBox + spMin.1) (infoB.dim.1 + spMin.1)
  let nyMax := Int.fdiv (hBox + spMin.2) (infoB.dim.2 + spMin.2)
  (nxyList nxMax nyMax).findSome? fun t =>
    (spComboFor sp sp2 sp3 t.2.1 t.2.2).findSome? fun s =>
      tryCombo extend wBox hBox botDir topDir infoB.enc infoB.arrEnc infoB.arrTest
        infoT.enc infoT.arrEnc infoT.arrTest infoB.dim t.2.1 t.2.2 s.1 s.2

/-- Lines 783-784: a layer's metal area as the source computes it,
`int(round(mdim[0] / res)) * int(round(mdim[1] / res))`. -/
def mdimArea (res : ℚ) (mdim : ℤ × ℤ) : ℤ :=
  pyRound ((mdim.1 : ℚ) / res) * pyRound ((mdim.2 : ℚ) / res)

/-- Lines 781-789: the loop body of `_via_better`, with the running `better`
flag and the early `return False`. -/
def via_better_go (res : ℚ) : List ((ℤ × ℤ) × (ℤ × ℤ)) → Bool → Bool
  | [], better => better
  | (m1, m2) :: rest, better =>
    let area1 := mdimArea res m1
    let area2 := mdimArea res m2
    if area1 < area2 then via_better_go res rest true
    else if area1 > area2 then false
    else via_better_go res rest better

/-- Lines 778-789: `_via_better(mdim_list1, mdim_list2)` — true when the via
in the first list has smaller metal area than the via in the second. -/
def via_better (res : ℚ) (mdimList1 mdimList2 : List (ℤ × ℤ)) : Bool :=
  via_better_go res (mdimList1.zip mdimList2) false

/-- The result tuple of `get_best_via_array`:
`(best_nxy, best_mdim_list, best_type, best_vdim, best_sp, best_adim)`. -/
structure ViaArrayResult where
  nxy : ℤ × ℤ
  mdimList : List (ℤ × ℤ)
  vtype : String
  vdim : ℤ × ℤ
  viaSp : ℤ × ℤ
  viaArrDim : ℤ × ℤ
deriving DecidableEq, Repr

/-- The fold state: the running `best_num` and the current best result. -/
structure BestState where
  num : ℤ
  result : ViaArrayResult
deriving DecidableEq, Repr

/-- Lines 762-772: replace the running best by the candidate exactly when
`best_num is None`, the weighted count is larger, or it ties and
`_via_better` holds. -/
def updateBest (res : ℚ) (best : Option BestState) (cand : BestState) : Option BestState :=
  match best with
  | none => some cand
  | some b =>
    if cand.num > b.num ∨ (cand.num = b.num ∧ via_better res cand.result.mdimList b.result.mdimList = true)
    then some cand else some b

/-- One iteration of the `for vtype, weight in via_type_list` loop
(lines 661-772): look up both layers' DRC info (a failed lookup skips the
candidate), run the per-type search, and update the running best. -/
def stepType (drc : String → ℤ → Bool → Option ViaDrcInfo) (botDir topDir : Dir)
    (wBox hBox : ℤ) (extend : Bool) (res : ℚ)
    (best : Option BestState) (tw : String × ℤ) : Option BestState :=
  let bb := if botDir = Dir.x then hBox else wBox
  let tb := if topDir = Dir.x then hBox else wBox
  match drc tw.1 bb true, drc tw.1 tb false with
  | some infoB, some infoT =>
    (match perTypeSearch extend wBox hBox botDir topDir infoB infoT with
     | none => best
     | some opt =>
       updateBest res best
         ⟨tw.2 * (opt.nxy.1 * opt.nxy.2),
          ⟨opt.nxy, opt.mdimList, tw.1, infoB.dim, opt.vsp, opt.adim⟩⟩)
  | _, _ => best

/-- Lines 644-772: the full loop over candidate via types, keeping the best
state (`best_num` together with the result fields). -/
def get_best_via_array_aux (drc : String → ℤ → Bool → Option ViaDrcInfo)
    (viaTypes : List (String × ℤ)) (botDir topDir : Dir)
    (wBox hBox : ℤ) (extend : Bool) (res : ℚ) : Option BestState :=
  viaTypes.foldl (stepType drc botDir topDir wBox hBox extend res) none

/-- Lines 607-776: `get_best_via_array`.  Returns `None` when no via type
produced a feasible configuration (lines 774-775). -/
def get_best_via_array (drc : String → ℤ → Bool → Option ViaDrcInfo)
    (viaTypes : List (String × ℤ)) (botDir topDir : Dir)
    (wBox hBox : ℤ) (extend : Bool) (res : ℚ) : Option ViaArrayResult :=
  (get_best_via_array_aux drc viaTypes botDir topDir wBox hBox extend res).map (·.result)

/-- Line 605: the default ordered via type candidates `get_via_types`. -/
def defaultViaTypes : List (String × ℤ) := [("square", 1), ("vrect", 2), ("hrect", 2)]

/-- What one via-type candidate contributes: `none` when a DRC lookup fails
(the `except ValueError: continue` of lines 670-671) or the per-type search
finds nothing; otherwise the per-type optimum. -/
def typeCandidate (drc : String → ℤ → Bool → Option ViaDrcInfo) (botDir topDir : Dir)
    (wBox hBox : ℤ) (extend : Bool) (tw : String × ℤ) : Option PerTypeOpt :=
  match drc tw.1 (if botDir = Dir.x then hBox else wBox) true,
        drc tw.1 (if topDir = Dir.x then hBox else wBox) false with
  | some infoB, some infoT => perTypeSearch extend wBox hBox botDir topDir infoB infoT
  | _, _ => none

/-- The via pitch (dimension plus spacing floor) is positive in both axes:
the divisors of the `nx_max`/`ny_max` computation on lines 684-685. -/
def pitchOk (info : ViaDrcInfo) : Prop :=
  0 < info.dim.1 + (spFloor info.sp (defaultSp2 info.sp info.sp2List)
      (defaultSp3 (defaultSp2 info.sp info.sp2List) info.sp3List)).1 ∧
  0 < info.dim.2 + (spFloor info.sp (defaultSp2 info.sp info.sp2List)
      (defaultSp3 (defaultSp2 info.sp info.sp2List) info.sp3List)).2

/-- The fields of the `get_via_info` result dictionary that the claims touch
(lines 936-944): the resistance and aggregated EM limits. -/
structure ViaInfo where
  resistance : ℚ
  idc : WithTop ℚ
  iacRms : WithTop ℚ
  iacPeak : WithTop ℚ
  numRows : ℤ
  numCols : ℤ
deriving DecidableEq

/-- Lines 811-944: `get_via_info` (the fields the claims touch).  Resolves
the via array through `get_best_via_array` and, on success, assembles the
info dictionary whose `resistance` entry is the literal `0.0` of line 937.
The per-via EM limits come from the provider's `get_via_em_specs`, taking
the via type, the EM rule dimensions of lines 902-905 (`bw, tw = hbot * res,
wtop * res` for an `'x'` bottom direction, else `wbot * res, htop * res`)
paired with the supplied wire lengths, and the array flag
`nx > 1 or ny > 1`; the aggregated limits multiply the per-via limits by the
total count `nx * ny` (lines 938-940).  Returns `None` when the optimizer
found nothing (lines 880-882). -/
def get_via_info (drc : String → ℤ → Bool → Option ViaDrcInfo)
    (viaTypes : List (String × ℤ))
    (emSpecs : String → ℚ × ℚ → ℚ × ℚ → Bool → WithTop ℚ × WithTop ℚ × WithTop ℚ)
    (botDir topDir : Dir) (wBox hBox : ℤ) (botLen topLen : ℚ) (extend : Bool)
    (res : ℚ) : Option ViaInfo :=
  match get_best_via_array drc viaTypes botDir topDir wBox hBox extend res with
  | none => none
  | some r =>
    let nx := r.nxy.1
    let ny := r.nxy.2
    let mB := r.mdimList.getD 0 (0, 0)
    let mT := r.mdimList.getD 1 (0, 0)
    let bw := if botDir = Dir.x then (mB.2 : ℚ) * res else (mB.1 : ℚ) * res
    let tw := if botDir = Dir.x then (mT.1 : ℚ) * res else (mT.2 : ℚ) * res
    let lims := emSpecs r.vtype (bw, botLen) (tw, topLen) (decide (nx > 1 ∨ ny > 1))
    let ntot := nx * ny
    some ⟨0, lims.1 * (ntot : ℚ), lims.2.1 * (ntot : ℚ), lims.2.2 * (ntot : ℚ), ny, nx⟩

/-! ## The resistor sizer (`design_resistor`, lines 946-1048)

The searches use `BinaryIterator` from `bag.util.search`, a module of this
repository that is not among the staged sources.  Modelled from the spec:
the helper performs a monotonic binary search over a feasibility predicate,
"retaining the best feasible solution seen", the inner bounded search
"returns the smallest feasible width found, with its paired length, or no
solution if none", and the outer search over the parallel count is unbounded
above, moving to a larger count whenever a candidate is infeasible and
returning the best saved result.  Accordingly the bounded inner iterator is
modelled as first-success over the ascending even width grid, and the
unbounded outer iterator as first-success over the ascending parallel-count
progression, with explicit fuel standing for the number of loop iterations:
a `none` from `outerSearch`/`design_resistor` means the source's `while`
loop has not exited within that many candidate counts (the loop can only
terminate after `save_info` recorded a solution, so when no count is
feasible it never exits, for any fuel). -/

/-- The technology data `design_resistor` consumes: the resolution and layout
unit of `TechInfo`, and the provider methods `get_res_rsquare`,
`get_res_width_bounds`, `get_res_length_bounds`, `get_res_min_nsquare` and
`get_res_em_specs` (the latter as a function of physical width and length,
`l = -1` standing for the omitted default argument). -/
structure ResTech where
  resolution : ℚ
  layoutUnit : ℚ
  rsq : ℚ
  wminPhys : ℚ
  wmaxPhys : ℚ
  lminPhys : ℚ
  lmaxPhys : ℚ
  minNsq : ℚ
  em : ℚ → ℚ → WithTop ℚ × WithTop ℚ × WithTop ℚ

/-- Lines 1006-1007 and 1021-1022: the EM infeasibility test
`0.0 < res_idc < idc_par or 0.0 < res_irms < iac_rms_par or
0.0 < res_ipeak < iac_peak_par`, on the provider limits `lims` against the
spec currents already divided by the parallel count. -/
def emViolated (lims : WithTop ℚ × WithTop ℚ × WithTop ℚ)
    (idcPar iacRmsPar iacPeakPar : ℚ) : Bool :=
  decide (0 < lims.1 ∧ lims.1 < (idcPar : WithTop ℚ)) ||
  decide (0 < lims.2.1 ∧ lims.2.1 < (iacRmsPar : WithTop ℚ)) ||
  decide (0 < lims.2.2 ∧ lims.2.2 < (iacPeakPar : WithTop ℚ))

/-- The candidate unit widths of `BinaryIterator(wmin_unit, wmax_unit + 1, step=2)`
in ascending order: the even grid `wmin_unit, wmin_unit + 2, …` below
`wmax_unit + 1`. -/
def widthCandidates (wminU wmaxU : ℤ) : List ℤ :=
  (List.range (Int.fdiv (wmaxU - wminU) 2 + 1).toNat).map fun (k : ℕ) => wminU + 2 * (k : ℤ)

/-- Lines 1011-1028: the inner width search.  For a width `w` the minimal
length is `l = ceil(res_targ_par / rsq * w)`; the candidate is infeasible
when `l` is below `max(lmin_unit, ceil(min_nsq * w))` or the EM limits at
`(w * resolution, l * resolution)` are violated.  Modelled from the spec:
the `BinaryIterator` search returns the smallest feasible width with its
paired length. -/
def innerWidthSearch (T : ResTech) (resTargPar idcPar iacRmsPar iacPeakPar : ℚ)
    (wminU wmaxU lminU : ℤ) : Option (ℤ × ℤ) :=
  (widthCandidates wminU wmaxU).findSome? fun (wcur : ℤ) =>
    let lcur := ⌈resTargPar / T.rsq * (wcur : ℚ)⌉
    if lcur < max lminU ⌈T.minNsq * (wcur : ℚ)⌉ then none
    else if emViolated (T.em ((wcur : ℚ) * T.resolution) ((lcur : ℚ) * T.resolution))
        idcPar iacRmsPar iacPeakPar then none
    else some (wcur, lcur)

/-- Lines 999-1035, one candidate parallel count: divide the current specs by
`npar`, run the pre-check at the maximum physical width (line 1005 passes no
length, so `l = -1`), and when it passes run the inner width search. -/
def nparFeasible (T : ResTech) (resTarg idc iacRms iacPeak : ℚ)
    (wminU wmaxU lminU : ℤ) (npar : ℤ) : Option (ℤ × ℤ × ℤ) :=
  let resTargPar := resTarg * (npar : ℚ)
  let idcPar := idc / (npar : ℚ)
  let iacRmsPar := iacRms / (npar : ℚ)
  let iacPeakPar := iacPeak / (npar : ℚ)
  if emViolated (T.em T.wmaxPhys (-1)) idcPar iacRmsPar iacPeakPar then none
  else (innerWidthSearch T resTargPar idcPar iacRmsPar iacPeakPar wminU wmaxU lminU).map
    fun wl => (npar, wl.1, wl.2)

/-- Lines 995-1035: the outer search over the parallel count, starting at 2
stepping by 2 when `num_even`, else starting at 1 stepping by 1.  Modelled
from the spec: the unbounded monotonic search finds the smallest feasible
count; `fuel` bounds the number of candidates examined, and `none` means the
source loop has not exited within `fuel` iterations. -/
def outerSearch (T : ResTech) (resTarg idc iacRms iacPeak : ℚ)
    (wminU wmaxU lminU : ℤ) (numEven : Bool) (fuel : ℕ) : Option (ℤ × ℤ × ℤ) :=
  let start : ℤ := if numEven then 2 else 1
  let step : ℤ := if numEven then 2 else 1
  (List.range fuel).findSome? fun k =>
    nparFeasible T resTarg idc iacRms iacPeak wminU wmaxU lminU (start + step * (k : ℤ))

/-- Lines 986 and 991: `wmin_unit = -2 * (-int(round(wmin / resolution)) // 2)`. -/
def wminUnit (T : ResTech) : ℤ := -2 * Int.fdiv (-(pyRound (T.wminPhys / T.resolution))) 2

/-- Lines 987 and 992: `wmax_unit = 2 * (int(round(wmax / resolution)) // 2)`. -/
def wmaxUnit (T : ResTech) : ℤ := 2 * Int.fdiv (pyRound (T.wmaxPhys / T.resolution)) 2

/-- Line 988: `lmin_unit = int(round(lmin / resolution))`. -/
def lminUnit (T : ResTech) : ℤ := pyRound (T.lminPhys / T.resolution)

/-- Line 989: `lmax_unit = int(round(lmax / resolution))`. -/
def lmaxUnit (T : ResTech) : ℤ := pyRound (T.lmaxPhys / T.resolution)

/-- Lines 946-1048: `design_resistor`.  Converts the provider bounds to
resolution units, makes the width bounds even, runs the nested searches, and
applies the series correction of lines 1040-1045: when the found unit length
exceeds `lmax_unit`, `num_ser = -(-lopt_unit // lmax_unit)` and
`lopt = round(lopt_unit / num_ser / resolution) * resolution`, else
`num_ser = 1` and `lopt = lopt_unit * resolution`.  Returns
`(num_par, num_ser, wopt * layout_unit, lopt * layout_unit)`; `none` means
the outer loop has not exited within `fuel` iterations. -/
def design_resistor (T : ResTech) (resTarg idc iacRms iacPeak : ℚ)
    (numEven : Bool) (fuel : ℕ) : Option (ℤ × ℤ × ℚ × ℚ) :=
  let wminU := wminUnit T
  let wmaxU := wmaxUnit T
  let lminU := lminUnit T
  let lmaxU := lmaxUnit T
  match outerSearch T resTarg idc iacRms iacPeak wminU wmaxU lminU numEven fuel with
  | none => none
  | some (numPar, woptU, loptU) =>
    let wopt := (woptU : ℚ) * T.resolution
    if loptU > lmaxU then
      let numSer := -(Int.fdiv (-loptU) lmaxU)
      let lopt := (pyRound ((loptU : ℚ) / (numSer : ℚ) / T.resolution) : ℚ) * T.resolution
      some (numPar, numSer, wopt * T.layoutUnit, lopt * T.layoutUnit)
    else
      some (numPar, 1, wopt * T.layoutUnit, ((loptU : ℚ) * T.resolution) * T.layoutUnit)

/-! ## Concrete scenario data -/

/-- Scenario A's single via type: via dimension `(2, 2)`, spacing `(1, 1)` in
every regime, enclosure `(0, 0)` on both layers, no array override. -/
def drcInfoA : ViaDrcInfo := ⟨(1, 1), some [(1, 1)], some [(1, 1)], (2, 2), [(0, 0)], [], none⟩

/-- Scenario A's provider: a rule for the `square` type only. -/
def drcA : String → ℤ → Bool → Option ViaDrcInfo :=
  fun t _ _ => if t = "square" then some drcInfoA else none

/-- A provider whose `square` type has via dimension `(2, 2)` and whose
`vrect` type has via dimension `(7, 2)`, both with spacing `(1, 1)` in every
regime and enclosure `(0, 0)`; other types have no rule. -/
def drcM : String → ℤ → Bool → Option ViaDrcInfo :=
  fun t _ _ =>
    if t = "square" then some ⟨(1, 1), some [(1, 1)], some [(1, 1)], (2, 2), [(0, 0)], [], none⟩
    else if t = "vrect" then some ⟨(1, 1), some [(1, 1)], some [(1, 1)], (7, 2), [(0, 0)], [], none⟩
    else none

/-- An ordered via-type list weighting `vrect` three times a `square`. -/
def viaTypesM : List (String × ℤ) := [("square", 1), ("vrect", 3)]

/-- A resistor technology with an empty unit width range: physical width
bounds `[3, 1]` at resolution 1 give `wmin_unit = 4 > 0 = wmax_unit`, so the
inner width search has no candidate and no parallel count is ever feasible. -/
def resTechBad : ResTech := ⟨1, 1, 1, 3, 1, 1, 1, 1, fun _ _ => (0, 0, 0)⟩

/-- The resistor technology of the series-correction scenario: resolution
`0.5`, sheet resistance 1, width bounds `[1, 1]`, length bounds `[1, 1]`,
`min_nsquare = 1`, no EM limits. -/
def resTechSer : ResTech := ⟨1/2, 1, 1, 1, 1, 1, 1, 1, fun _ _ => (0, 0, 0)⟩

/-- Unbounded per-via EM limits for every via type. -/
def emSpecsA : String → ℚ × ℚ → ℚ × ℚ → Bool → WithTop ℚ × WithTop ℚ × WithTop ℚ :=
  fun _ _ _ _ => (⊤, ⊤, ⊤)

/-- The info record `get_via_info` computes in scenario A with `emSpecsA`. -/
def viaInfoA : ViaInfo := ⟨0, ⊤, ⊤, ⊤, 3, 3⟩

/-! ## C7 — scenario A returns the maximum 3×3 packing -/

/-- C7: on a 10×10 box with a single via type of dimension `(2, 2)`, spacing
`(1, 1)` in every regime and enclosure satisfiable for every configuration,
`get_best_via_array` returns `nx = ny = 3` (9 vias), consistent with the
maximum-count bound `max_cols = (box_w + floor_x) // (via_w + floor_x)`
where the floor is the elementwise minimum over the supplied regimes. -/
theorem claim_C7 :
    get_best_via_array drcA [("square", 1)] Dir.x Dir.y 10 10 true 1 =
      some ⟨(3, 3), [(10, 10), (10, 10)], "square", (2, 2), (1, 1), (8, 8)⟩ ∧
    spFloor drcInfoA.sp (defaultSp2 drcInfoA.sp drcInfoA.sp2List)
        (defaultSp3 (defaultSp2 drcInfoA.sp drcInfoA.sp2List) drcInfoA.sp3List) = (1, 1) ∧
    Int.fdiv (10 + 1) (2 + 1) = 3 := by
  exact ⟨by decide, by decide, by decide⟩

/-! ## C10 — the returned via resistance is always the literal 0.0 -/

/-- C10: every successful `get_via_info` result has `resistance = 0.0`,
whatever the provider returns: line 937 stores the literal `0.0` and no via
resistance is ever computed. -/
theorem claim_C10 (drc : String → ℤ → Bool → Option ViaDrcInfo)
    (viaTypes : List (String × ℤ))
    (emSpecs : String → ℚ × ℚ → ℚ × ℚ → Bool → WithTop ℚ × WithTop ℚ × WithTop ℚ)
    (botDir topDir : Dir) (wBox hBox : ℤ) (botLen topLen : ℚ) (extend : Bool)
    (res : ℚ) (info : ViaInfo)
    (h : get_via_info drc viaTypes emSpecs botDir topDir wBox hBox botLen topLen
      extend res = some info) :
    info.resistance = 0 := by
  unfold get_via_info at h
  split at h
  · exact Option.noConfusion h
  · injection h with h'
    rw [← h']

/-- Witness for C10 at scenario A's concrete inputs. -/
theorem claim_C10_witness : viaInfoA.resistance = 0 :=
  claim_C10 drcA [("square", 1)] emSpecsA Dir.x Dir.y 10 10 (-1) (-1) true 1 viaInfoA
    (by decide)

/-! ## C1 — the series correction mis-scales the per-device length -/

/-- C1 (evaluation at the failing input): with resolution `0.5`, sheet
resistance 1, width bounds `[1, 1]`, length bounds `[1, 1]` and target 3 Ω,
the inner search picks unit width 2 and unit length 6 (resolution units);
`l = 6 > lmax_unit = 2` forces `num_ser = 3`, and the code returns unit
length `round(6 / 3 / 0.5) * 0.5 = 2.0` layout units.  The claimed value —
`round(l / num_ser)` resolution units snapped to the grid — is
`round(6 / 3) * 0.5 = 1.0`, and the claimed approximation bound fails: the
returned total `2.0 * 3 = 6.0` differs from the pre-correction physical
length `6 * 0.5 = 3.0` by six resolution units, not at most one. -/
theorem claim_C1_eval :
    design_resistor resTechSer 3 0 0 0 false 1 = some (1, 3, 1, 2) ∧
    (pyRound ((6 : ℚ) / 3) : ℚ) * (1/2) = 1 ∧
    ¬ (|(2 : ℚ) * 3 - (6 : ℚ) * (1/2)| ≤ 1/2) := by
  refine ⟨?_, by norm_num [pyRound], by norm_num⟩
  have h1 : ((-2 : ℤ).fdiv 2) = -1 := by decide
  have h2 : ((-6 : ℤ).fdiv 2) = -3 := by decide
  norm_num [design_resistor, outerSearch, nparFeasible, innerWidthSearch, widthCandidates,
    resTechSer, emViolated, wminUnit, wmaxUnit, lminUnit, lmaxUnit, pyRound, h1, h2,
    List.range_succ, List.range_zero, List.findSome?_cons]

/-! ## C3 — an absent 3+-neighbor regime defaults to the 2-neighbor list -/

/-- C3 counterexample: base spacing `(1, 1)`, supplied 2-neighbor list
`[(5, 5)]`, absent 3+-neighbor list.  The configuration `(3, 2)` selects the
3+-neighbor regime, and the spacing pairs actually tried are `[(5, 5)]`, not
the base rule's `[(1, 1)]`. -/
theorem claim_C3_counterexample :
    defaultSp3 (defaultSp2 (1, 1) (some [(5, 5)])) none = [((5 : ℤ), (5 : ℤ))] ∧
    spComboFor (1, 1) (defaultSp2 (1, 1) (some [(5, 5)]))
      (defaultSp3 (defaultSp2 (1, 1) (some [(5, 5)])) none) 3 2 = [(5, 5)] ∧
    (1 < (3 : ℤ) ∧ 1 < (2 : ℤ) ∧ ¬((3 : ℤ) = 2 ∧ (2 : ℤ) = 2)) ∧
    [((5 : ℤ), (5 : ℤ))] ≠ [((1 : ℤ), (1 : ℤ))] := by decide

/-- C3 (amended): an absent 3+-neighbor regime defaults to the (defaulted)
2-neighbor list, which itself defaults to the base rule when absent; hence
the pairs tried for a 3+-selected configuration are exactly the base rule's
when both richer regimes are absent. -/
theorem claim_C3 (sp : ℤ × ℤ) (sp2o : Option (List (ℤ × ℤ))) (nx ny : ℤ) :
    defaultSp3 (defaultSp2 sp sp2o) none = defaultSp2 sp sp2o ∧
    defaultSp2 sp none = [sp] ∧
    spComboFor sp (defaultSp2 sp none) (defaultSp3 (defaultSp2 sp none) none) nx ny = [sp] := by
  refine ⟨rfl, rfl, ?_⟩
  unfold spComboFor
  split
  · rfl
  · split
    · rfl
    · rfl

/-! ## C9 — the spacing-regime selection -/

/-- C9: for `1 ≤ nx, ny`, exactly 2×2 uses the 2-neighbor regime, a pair
with one dimension greater than 2 and the other greater than 1 uses the
3+-neighbor regime, and every other pair (a single row or a single column)
uses the base rule alone. -/
theorem claim_C9 (sp : ℤ × ℤ) (sp2 sp3 : List (ℤ × ℤ)) (nx ny : ℤ)
    (hx : 1 ≤ nx) (hy : 1 ≤ ny) :
    ((nx = 2 ∧ ny = 2) ∧ spComboFor sp sp2 sp3 nx ny = sp2) ∨
    (((2 < nx ∧ 1 < ny) ∨ (2 < ny ∧ 1 < nx)) ∧ spComboFor sp sp2 sp3 nx ny = sp3) ∨
    ((nx = 1 ∨ ny = 1) ∧ spComboFor sp sp2 sp3 nx ny = [sp]) := by
  unfold spComboFor
  by_cases h1 : nx = 2 ∧ ny = 2
  · exact Or.inl ⟨h1, by rw [if_pos h1]⟩
  · by_cases h2 : 1 < nx ∧ 1 < ny
    · exact Or.inr (Or.inl ⟨by omega, by rw [if_neg h1, if_pos h2]⟩)
    · exact Or.inr (Or.inr ⟨by omega, by rw [if_neg h1, if_neg h2]⟩)

/-! ## C2 — how exhaustive failure is surfaced -/

/-- A via type whose candidate contributes nothing leaves the running best
untouched. -/
lemma stepType_of_none (drc : String → ℤ → Bool → Option ViaDrcInfo) (bd td : Dir)
    (wBox hBox : ℤ) (ext : Bool) (res : ℚ) (best : Option BestState) (tw : String × ℤ)
    (hc : typeCandidate drc bd td wBox hBox ext tw = none) :
    stepType drc bd td wBox hBox ext res best tw = best := by
  unfold typeCandidate at hc
  simp only [stepType]
  cases hB : drc tw.1 (if bd = Dir.x then hBox else wBox) true with
  | none => rfl
  | some infoB =>
    cases hT : drc tw.1 (if td = Dir.x then hBox else wBox) false with
    | none => rfl
    | some infoT =>
      rw [hB, hT] at hc
      have hc' : perTypeSearch ext wBox hBox bd td infoB infoT = none := hc
      simp only [hc']

/-- When every via type candidate contributes nothing, the whole fold is
`none`. -/
lemma aux_none_of_all (drc : String → ℤ → Bool → Option ViaDrcInfo)
    (types : List (String × ℤ)) (bd td : Dir) (wBox hBox : ℤ) (ext : Bool) (res : ℚ)
    (hall : ∀ tw ∈ types, typeCandidate drc bd td wBox hBox ext tw = none) :
    get_best_via_array_aux drc types bd td wBox hBox ext res = none := by
  unfold get_best_via_array_aux
  induction types with
  | nil => rfl
  | cons tw rest ih =>
    rw [List.foldl_cons, stepType_of_none drc bd td wBox hBox ext res none tw
      (hall tw (List.mem_cons_self tw rest))]
    exact ih fun t ht => hall t (List.mem_cons_of_mem _ ht)

/-- When no parallel count is feasible, the outer search yields nothing for
any fuel: the source's `while` loop never exits. -/
lemma outerSearch_none_of_all (T : ResTech) (rt i ir ip : ℚ) (wminU wmaxU lminU : ℤ)
    (numEven : Bool)
    (hall : ∀ npar : ℤ, nparFeasible T rt i ir ip wminU wmaxU lminU npar = none) :
    ∀ fuel, outerSearch T rt i ir ip wminU wmaxU lminU numEven fuel = none := by
  intro fuel
  simp only [outerSearch, List.findSome?_eq_none_iff]
  intro k _
  exact hall _

/-- When no parallel count is feasible, `design_resistor` never returns. -/
lemma design_resistor_none_of_all (T : ResTech) (rt i ir ip : ℚ) (numEven : Bool)
    (hall : ∀ npar : ℤ,
      nparFeasible T rt i ir ip (wminUnit T) (wmaxUnit T) (lminUnit T) npar = none) :
    ∀ fuel, design_resistor T rt i ir ip numEven fuel = none := by
  intro fuel
  simp only [design_resistor]
  rw [outerSearch_none_of_all T rt i ir ip (wminUnit T) (wmaxUnit T) (lminUnit T)
    numEven hall fuel]

lemma wminUnit_bad : wminUnit resTechBad = 4 := by
  norm_num [wminUnit, resTechBad, pyRound]
  decide

lemma wmaxUnit_bad : wmaxUnit resTechBad = 0 := by
  norm_num [wmaxUnit, resTechBad, pyRound]
  decide

/-- With a limit triple of zeroes the EM check never fires (`0.0 < 0.0` is
false). -/
lemma emViolated_zero (a b c : ℚ) : emViolated (0, 0, 0) a b c = false := by
  simp [emViolated]

/-- In `resTechBad` the evenized width range is empty (`wmin_unit = 4`,
`wmax_unit = 0`), so no parallel count is ever feasible. -/
lemma resTechBad_infeasible : ∀ npar : ℤ,
    nparFeasible resTechBad 1 0 0 0 (wminUnit resTechBad) (wmaxUnit resTechBad)
      (lminUnit resTechBad) npar = none := by
  intro npar
  rw [wminUnit_bad, wmaxUnit_bad]
  simp only [nparFeasible]
  rw [show resTechBad.em resTechBad.wmaxPhys (-1) = (0, 0, 0) from rfl, emViolated_zero]
  rw [if_neg (by simp)]
  rw [show innerWidthSearch resTechBad (1 * (npar : ℚ)) (0 / (npar : ℚ)) (0 / (npar : ℚ))
      (0 / (npar : ℚ)) 4 0 (lminUnit resTechBad) = none from rfl]
  rfl

/-- C2 (amended): `get_best_via_array` surfaces exhaustive failure as `None`
(lines 774-775); `design_resistor`, however, never returns a typed
no-solution value: its outer loop can only exit after `save_info` recorded a
feasible solution, so when no parallel count admits a feasible width the
call does not return at all. -/
theorem claim_C2 :
    (∀ (drc : String → ℤ → Bool → Option ViaDrcInfo) (types : List (String × ℤ))
      (bd td : Dir) (wBox hBox : ℤ) (ext : Bool) (res : ℚ),
      (∀ tw ∈ types, typeCandidate drc bd td wBox hBox ext tw = none) →
      get_best_via_array drc types bd td wBox hBox ext res = none) ∧
    (∀ (T : ResTech) (rt i ir ip : ℚ) (numEven : Bool),
      (∀ npar : ℤ,
        nparFeasible T rt i ir ip (wminUnit T) (wmaxUnit T) (lminUnit T) npar = none) →
      ∀ fuel, design_resistor T rt i ir ip numEven fuel = none) := by
  constructor
  · intro drc types bd td wBox hBox ext res hall
    unfold get_best_via_array
    rw [aux_none_of_all drc types bd td wBox hBox ext res hall]
    rfl
  · exact design_resistor_none_of_all

/-- C2 counterexample: with `resTechBad` (empty evenized width range) no
parallel count is feasible, and `design_resistor` does not return for any
fuel — the claim's typed no-solution return value does not exist. -/
theorem claim_C2_counterexample :
    (∀ npar : ℤ,
      nparFeasible resTechBad 1 0 0 0 (wminUnit resTechBad) (wmaxUnit resTechBad)
        (lminUnit resTechBad) npar = none) ∧
    (∀ fuel : ℕ, design_resistor resTechBad 1 0 0 0 false fuel = none) :=
  ⟨resTechBad_infeasible,
   design_resistor_none_of_all resTechBad 1 0 0 0 false resTechBad_infeasible⟩

/-! ## Shared lemmas about the best-candidate fold (lines 661-772) -/

lemma updateBest_none_eq (res : ℚ) (cand : BestState) :
    updateBest res none cand = some cand := rfl

lemma updateBest_some_cases (res : ℚ) (b cand : BestState) :
    updateBest res (some b) cand = some cand ∨ updateBest res (some b) cand = some b := by
  simp only [updateBest]
  split
  · exact Or.inl rfl
  · exact Or.inr rfl

/-- Whatever `updateBest` keeps has a weighted count at least both inputs'. -/
lemma updateBest_le (res : ℚ) (b cand s : BestState)
    (h : updateBest res (some b) cand = some s) :
    b.num ≤ s.num ∧ cand.num ≤ s.num ∧ (s = cand ∨ s = b) := by
  simp only [updateBest] at h
  split at h
  · rename_i hcond
    injection h with h
    rw [← h]
    rcases hcond with hgt | ⟨heq, -⟩
    · exact ⟨le_of_lt hgt, le_refl _, Or.inl rfl⟩
    · exact ⟨le_of_eq heq.symm, le_refl _, Or.inl rfl⟩
  · rename_i hcond
    injection h with h
    rw [← h]
    have h1 : ¬ (cand.num > b.num) := fun hgt => hcond (Or.inl hgt)
    exact ⟨le_refl _, not_lt.mp h1, Or.inr rfl⟩

/-- A via type with an accepted candidate drives the step through
`updateBest` with the candidate built from its optimum and its bottom DRC
info. -/
lemma stepType_of_cand (drc : String → ℤ → Bool → Option ViaDrcInfo) (bd td : Dir)
    (wBox hBox : ℤ) (ext : Bool) (res : ℚ) (best : Option BestState) (tw : String × ℤ)
    (opt : PerTypeOpt)
    (hc : typeCandidate drc bd td wBox hBox ext tw = some opt) :
    ∃ infoB, drc tw.1 (if bd = Dir.x then hBox else wBox) true = some infoB ∧
      stepType drc bd td wBox hBox ext res best tw =
        updateBest res best ⟨tw.2 * (opt.nxy.1 * opt.nxy.2),
          ⟨opt.nxy, opt.mdimList, tw.1, infoB.dim, opt.vsp, opt.adim⟩⟩ := by
  unfold typeCandidate at hc
  simp only [stepType]
  cases hB : drc tw.1 (if bd = Dir.x then hBox else wBox) true with
  | none =>
    rw [hB] at hc
    exact Option.noConfusion hc
  | some infoB =>
    cases hT : drc tw.1 (if td = Dir.x then hBox else wBox) false with
    | none =>
      rw [hB, hT] at hc
      exact Option.noConfusion hc
    | some infoT =>
      rw [hB, hT] at hc
      have hc' : perTypeSearch ext wBox hBox bd td infoB infoT = some opt := hc
      refine ⟨infoB, rfl, ?_⟩
      simp only [hc']

/-- Once the running best is set it survives the rest of the fold, with a
non-decreasing weighted count. -/
lemma foldl_step_some (drc : String → ℤ → Bool → Option ViaDrcInfo) (bd td : Dir)
    (wBox hBox : ℤ) (ext : Bool) (res : ℚ) (l : List (String × ℤ)) :
    ∀ b : BestState,
      ∃ s, l.foldl (stepType drc bd td wBox hBox ext res) (some b) = some s ∧
        b.num ≤ s.num := by
  induction l with
  | nil => exact fun b => ⟨b, rfl, le_refl _⟩
  | cons tw rest ih =>
    intro b
    rw [List.foldl_cons]
    rcases hcand : typeCandidate drc bd td wBox hBox ext tw with _ | opt
    · rw [stepType_of_none drc bd td wBox hBox ext res (some b) tw hcand]
      exact ih b
    · obtain ⟨infoB, -, hstep⟩ := stepType_of_cand drc bd td wBox hBox ext res (some b) tw opt hcand
      rw [hstep]
      rcases updateBest_some_cases res b
          ⟨tw.2 * (opt.nxy.1 * opt.nxy.2),
           ⟨opt.nxy, opt.mdimList, tw.1, infoB.dim, opt.vsp, opt.adim⟩⟩ with hu | hu
      · rw [hu]
        obtain ⟨s, hs, hle⟩ := ih _
        exact ⟨s, hs, le_trans (updateBest_le res b _ _ hu).1 hle⟩
      · rw [hu]
        exact ih b

/-- The kept result's weighted count dominates every accepted candidate's. -/
lemma foldl_step_upper (drc : String → ℤ → Bool → Option ViaDrcInfo) (bd td : Dir)
    (wBox hBox : ℤ) (ext : Bool) (res : ℚ) (l : List (String × ℤ)) :
    ∀ (init : Option BestState) (s : BestState),
      l.foldl (stepType drc bd td wBox hBox ext res) init = some s →
      ∀ tw ∈ l, ∀ opt, typeCandidate drc bd td wBox hBox ext tw = some opt →
        tw.2 * (opt.nxy.1 * opt.nxy.2) ≤ s.num := by
  induction l with
  | nil =>
    intro init s h tw htw
    exact absurd htw (List.not_mem_nil tw)
  | cons tw' rest ih =>
    intro init s h tw htw opt hopt
    rw [List.foldl_cons] at h
    rcases List.mem_cons.mp htw with rfl | hmem
    · obtain ⟨infoB, -, hstep⟩ := stepType_of_cand drc bd td wBox hBox ext res init tw opt hopt
      rw [hstep] at h
      rcases init with _ | b
      · rw [updateBest_none_eq] at h
        obtain ⟨s', hs', hle⟩ := foldl_step_some drc bd td wBox hBox ext res rest _
        rw [h] at hs'
        injection hs' with hs'
        rw [hs']
        exact hle
      · rcases updateBest_some_cases res b
            ⟨tw.2 * (opt.nxy.1 * opt.nxy.2),
             ⟨opt.nxy, opt.mdimList, tw.1, infoB.dim, opt.vsp, opt.adim⟩⟩ with hu | hu
        · rw [hu] at h
          obtain ⟨s', hs', hle⟩ := foldl_step_some drc bd td wBox hBox ext res rest _
          rw [h] at hs'
          injection hs' with hs'
          rw [hs']
          exact hle
        · have hcle := (updateBest_le res b _ _ hu).2.1
          rw [hu] at h
          obtain ⟨s', hs', hle⟩ := foldl_step_some drc bd td wBox hBox ext res rest b
          rw [h] at hs'
          injection hs' with hs'
          rw [hs']
          exact le_trans hcle hle
    · exact ih _ s h tw hmem opt hopt

/-- Provenance: a kept result either is the initial state or was built from
some accepted via type of the list. -/
lemma foldl_step_member (drc : String → ℤ → Bool → Option ViaDrcInfo) (bd td : Dir)
    (wBox hBox : ℤ) (ext : Bool) (res : ℚ) (l : List (String × ℤ)) :
    ∀ (init : Option BestState) (s : BestState),
      l.foldl (stepType drc bd td wBox hBox ext res) init = some s →
      init = some s ∨
      ∃ tw ∈ l, ∃ infoB opt,
        drc tw.1 (if bd = Dir.x then hBox else wBox) true = some infoB ∧
        typeCandidate drc bd td wBox hBox ext tw = some opt ∧
        s = ⟨tw.2 * (opt.nxy.1 * opt.nxy.2),
             ⟨opt.nxy, opt.mdimList, tw.1, infoB.dim, opt.vsp, opt.adim⟩⟩ := by
  induction l with
  | nil => exact fun init s h => Or.inl h
  | cons tw' rest ih =>
    intro init s h
    rw [List.foldl_cons] at h
    rcases ih _ s h with hinit | ⟨tw, htw, infoB, opt, hB, hcand, hs⟩
    · rcases hcand : typeCandidate drc bd td wBox hBox ext tw' with _ | opt
      · rw [stepType_of_none drc bd td wBox hBox ext res init tw' hcand] at hinit
        exact Or.inl hinit
      · obtain ⟨infoB, hB, hstep⟩ :=
          stepType_of_cand drc bd td wBox hBox ext res init tw' opt hcand
        rw [hstep] at hinit
        rcases init with _ | b
        · rw [updateBest_none_eq] at hinit
          injection hinit with hinit
          exact Or.inr ⟨tw', List.mem_cons_self tw' rest, infoB, opt, hB, hcand, hinit.symm⟩
        · rcases (updateBest_le res b _ s hinit).2.2 with hsc | hsb
          · exact Or.inr ⟨tw', List.mem_cons_self tw' rest, infoB, opt, hB, hcand, hsc⟩
          · exact Or.inl (by rw [hsb])
    · exact Or.inr ⟨tw, List.mem_cons_of_mem _ htw, infoB, opt, hB, hcand, hs⟩

/-! ## C5 — weighted-count maximization and the `_via_better` tie-break -/

/-- One step of the `_via_better` layer loop. -/
lemma via_better_go_cons (res : ℚ) (m1 m2 : ℤ × ℤ) (rest : List ((ℤ × ℤ) × (ℤ × ℤ)))
    (better : Bool) :
    via_better_go res ((m1, m2) :: rest) better =
      if mdimArea res m1 < mdimArea res m2 then via_better_go res rest true
      else if mdimArea res m1 > mdimArea res m2 then false
      else via_better_go res rest better := rfl

lemma via_better_go_nil (res : ℚ) (better : Bool) : via_better_go res [] better = better := rfl

/-- `_via_better` on two-layer lists holds iff both layers' areas are `≤`
with at least one strictly `<`. -/
lemma via_better_pair_iff (res : ℚ) (m1b m1t m2b m2t : ℤ × ℤ) :
    via_better res [m1b, m1t] [m2b, m2t] = true ↔
      (mdimArea res m1b ≤ mdimArea res m2b ∧ mdimArea res m1t ≤ mdimArea res m2t ∧
        (mdimArea res m1b < mdimArea res m2b ∨ mdimArea res m1t < mdimArea res m2t)) := by
  show via_better_go res [(m1b, m2b), (m1t, m2t)] false = true ↔ _
  simp only [via_better_go_cons, via_better_go_nil]
  split_ifs <;> simp <;> omega

/-- C5: across via types the fold keeps the largest `weight * nx * ny` (the
kept state's count dominates every accepted candidate, conjunct 4), and on a
tie it switches exactly when `_via_better` holds (conjunct 3), where
`_via_better` is true iff each layer's computed metal area is `≤` with at
least one strictly `<` (conjunct 1); in particular it is false when both
layers' areas are equal (conjunct 2). -/
theorem claim_C5 :
    (∀ (res : ℚ) (m1b m1t m2b m2t : ℤ × ℤ),
      via_better res [m1b, m1t] [m2b, m2t] = true ↔
        (mdimArea res m1b ≤ mdimArea res m2b ∧ mdimArea res m1t ≤ mdimArea res m2t ∧
          (mdimArea res m1b < mdimArea res m2b ∨ mdimArea res m1t < mdimArea res m2t))) ∧
    (∀ (res : ℚ) (m1b m1t m2b m2t : ℤ × ℤ),
      mdimArea res m1b = mdimArea res m2b → mdimArea res m1t = mdimArea res m2t →
      via_better res [m1b, m1t] [m2b, m2t] = false) ∧
    (∀ (res : ℚ) (b cand : BestState), cand.num = b.num →
      updateBest res (some b) cand =
        if via_better res cand.result.mdimList b.result.mdimList = true then some cand
        else some b) ∧
    (∀ (drc : String → ℤ → Bool → Option ViaDrcInfo) (types : List (String × ℤ))
      (bd td : Dir) (wBox hBox : ℤ) (ext : Bool) (res : ℚ) (s : BestState),
      get_best_via_array_aux drc types bd td wBox hBox ext res = some s →
      ∀ tw ∈ types, ∀ opt, typeCandidate drc bd td wBox hBox ext tw = some opt →
        tw.2 * (opt.nxy.1 * opt.nxy.2) ≤ s.num) := by
  refine ⟨via_better_pair_iff, ?_, ?_, ?_⟩
  · intro res m1b m1t m2b m2t hb ht
    rw [← Bool.not_eq_true]
    rw [via_better_pair_iff]
    omega
  · intro res b cand heq
    simp only [updateBest]
    by_cases hvb : via_better res cand.result.mdimList b.result.mdimList = true
    · rw [if_pos (Or.inr ⟨heq, hvb⟩), if_pos hvb]
    · have hcond : ¬(cand.num > b.num ∨
          cand.num = b.num ∧ via_better res cand.result.mdimList b.result.mdimList = true) := by
        rintro (hgt | ⟨-, hvb'⟩)
        · omega
        · exact hvb hvb'
      rw [if_neg hcond, if_neg hvb]
  · intro drc types bd td wBox hBox ext res s h tw htw opt hopt
    exact foldl_step_upper drc bd td wBox hBox ext res types none s h tw htw opt hopt

/-! ## C4 — the accepted array fits the box -/

/-- The `min_ext_dim` fold produces a value iff the accumulator already held
one or some enclosure candidate passes. -/
lemma minExtFold_isSome (extend : Bool) (wBox hBox : ℤ) (mdir : Dir) (wArr hArr : ℤ) :
    ∀ (l : List (ℤ × ℤ)) (acc : Option ℤ),
      (minExtFold extend wBox hBox mdir wArr hArr l acc).isSome ↔
        acc.isSome ∨ ∃ e ∈ l, encPass extend wBox hBox mdir wArr hArr e := by
  intro l
  induction l with
  | nil =>
    intro acc
    simp [minExtFold]
  | cons e rest ih =>
    intro acc
    have hstep : minExtFold extend wBox hBox mdir wArr hArr (e :: rest) acc =
        minExtFold extend wBox hBox mdir wArr hArr rest
          (if encPass extend wBox hBox mdir wArr hArr e then
            match acc with
            | none => some (curExt mdir wArr hArr e)
            | some m =>
              if m > curExt mdir wArr hArr e then some (curExt mdir wArr hArr e) else some m
          else acc) := rfl
    rw [hstep, ih]
    by_cases hp : encPass extend wBox hBox mdir wArr hArr e
    · rw [if_pos hp]
      constructor
      · intro _
        exact Or.inr ⟨e, List.mem_cons_self e rest, hp⟩
      · intro _
        left
        cases acc with
        | none => rfl
        | some m =>
          show (if m > curExt mdir wArr hArr e then some (curExt mdir wArr hArr e)
                else some m).isSome = true
          split <;> rfl
    · rw [if_neg hp]
      constructor
      · rintro (h | ⟨e', he', hp'⟩)
        · exact Or.inl h
        · exact Or.inr ⟨e', List.mem_cons_of_mem _ he', hp'⟩
      · rintro (h | ⟨e', he', hp'⟩)
        · exact Or.inl h
        · rcases List.mem_cons.mp he' with rfl | he''
          · exact absurd hp' hp
          · exact Or.inr ⟨e', he'', hp'⟩

/-- The per-layer check succeeds iff some enclosure candidate passes. -/
lemma layerMdim_isSome_iff (extend : Bool) (wBox hBox : ℤ) (mdir : Dir)
    (totEnc : List (ℤ × ℤ)) (wArr hArr : ℤ) :
    (layerMdim extend wBox hBox mdir totEnc wArr hArr).isSome ↔
      ∃ e ∈ totEnc, encPass extend wBox hBox mdir wArr hArr e := by
  have hiff := minExtFold_isSome extend wBox hBox mdir wArr hArr totEnc none
  unfold layerMdim
  cases hf : minExtFold extend wBox hBox mdir wArr hArr totEnc none with
  | none =>
    rw [hf] at hiff
    simp at hiff
    constructor
    · intro hfalse
      exact (Bool.false_ne_true hfalse).elim
    · rintro ⟨⟨ea, eb⟩, he, hpass⟩
      exact absurd hpass (hiff ea eb he)
  | some m =>
    rw [hf] at hiff
    simp at hiff
    constructor
    · intro _
      obtain ⟨a, b, hab, hpass⟩ := hiff
      exact ⟨(a, b), hab, hpass⟩
    · intro _
      cases mdir <;> rfl

/-- Membership in a layer's full enclosure list comes from the base or the
array-override list. -/
lemma mem_totEncFor (enc arrEnc : List (ℤ × ℤ)) (t : Option (ℤ → ℤ → Bool))
    (nx ny : ℤ) (e : ℤ × ℤ) (he : e ∈ totEncFor enc arrEnc t nx ny) :
    e ∈ enc ∨ e ∈ arrEnc := by
  unfold totEncFor at he
  cases t with
  | none => exact Or.inl he
  | some f =>
    have he' : e ∈ (if f ny nx = true then enc ++ arrEnc else enc) := he
    by_cases hf : f ny nx = true
    · rw [if_pos hf] at he'
      exact List.mem_append.mp he'
    · rw [if_neg hf] at he'
      exact Or.inl he'

/-- A successful combination fixes the result fields and means both layers
found passing enclosures. -/
lemma tryCombo_some (extend : Bool) (wBox hBox : ℤ) (bd td : Dir)
    (encB arrEncB : List (ℤ × ℤ)) (arrTestB : Option (ℤ → ℤ → Bool))
    (encT arrEncT : List (ℤ × ℤ)) (arrTestT : Option (ℤ → ℤ → Bool))
    (dim : ℤ × ℤ) (nx ny spx spy : ℤ) (opt : PerTypeOpt)
    (h : tryCombo extend wBox hBox bd td encB arrEncB arrTestB encT arrEncT arrTestT
      dim nx ny spx spy = some opt) :
    opt.nxy = (nx, ny) ∧
    opt.adim = (nx * (spx + dim.1) - spx, ny * (spy + dim.2) - spy) ∧
    opt.vsp = (spx, spy) ∧
    (∃ e ∈ totEncFor encB arrEncB arrTestB nx ny,
      encPass extend wBox hBox bd (nx * (spx + dim.1) - spx) (ny * (spy + dim.2) - spy) e) ∧
    (∃ e ∈ totEncFor encT arrEncT arrTestT nx ny,
      encPass extend wBox hBox td (nx * (spx + dim.1) - spx) (ny * (spy + dim.2) - spy) e) := by
  unfold tryCombo at h
  cases hB : layerMdim extend wBox hBox bd (totEncFor encB arrEncB arrTestB nx ny)
      (nx * (spx + dim.1) - spx) (ny * (spy + dim.2) - spy) with
  | none =>
    rw [hB] at h
    exact Option.noConfusion h
  | some mB =>
    rw [hB] at h
    cases hT : layerMdim extend wBox hBox td (totEncFor encT arrEncT arrTestT nx ny)
        (nx * (spx + dim.1) - spx) (ny * (spy + dim.2) - spy) with
    | none =>
      rw [hT] at h
      exact Option.noConfusion h
    | some mT =>
      rw [hT] at h
      injection h with h
      rw [← h]
      refine ⟨rfl, rfl, rfl, ?_, ?_⟩
      · exact (layerMdim_isSome_iff extend wBox hBox bd _ _ _).mp (by rw [hB]; rfl)
      · exact (layerMdim_isSome_iff extend wBox hBox td _ _ _).mp (by rw [hT]; rfl)

/-- A per-type optimum comes from some `(num, nx, ny)` of the sorted list and
some spacing pair of its selected regime. -/
lemma perTypeSearch_some (extend : Bool) (wBox hBox : ℤ) (bd td : Dir)
    (infoB infoT : ViaDrcInfo) (opt : PerTypeOpt)
    (h : perTypeSearch extend wBox hBox bd td infoB infoT = some opt) :
    ∃ t ∈ nxyList
        (Int.fdiv (wBox + (spFloor infoB.sp (defaultSp2 infoB.sp infoB.sp2List)
            (defaultSp3 (defaultSp2 infoB.sp infoB.sp2List) infoB.sp3List)).1)
          (infoB.dim.1 + (spFloor infoB.sp (defaultSp2 infoB.sp infoB.sp2List)
            (defaultSp3 (defaultSp2 infoB.sp infoB.sp2List) infoB.sp3List)).1))
        (Int.fdiv (hBox + (spFloor infoB.sp (defaultSp2 infoB.sp infoB.sp2List)
            (defaultSp3 (defaultSp2 infoB.sp infoB.sp2List) infoB.sp3List)).2)
          (infoB.dim.2 + (spFloor infoB.sp (defaultSp2 infoB.sp infoB.sp2List)
            (defaultSp3 (defaultSp2 infoB.sp infoB.sp2List) infoB.sp3List)).2)),
      ∃ sp ∈ spComboFor infoB.sp (defaultSp2 infoB.sp infoB.sp2List)
          (defaultSp3 (defaultSp2 infoB.sp infoB.sp2List) infoB.sp3List) t.2.1 t.2.2,
        tryCombo extend wBox hBox bd td infoB.enc infoB.arrEnc infoB.arrTest
          infoT.enc infoT.arrEnc infoT.arrTest infoB.dim t.2.1 t.2.2 sp.1 sp.2 = some opt := by
  simp only [perTypeSearch] at h
  obtain ⟨t, ht, h2⟩ := List.exists_of_findSome?_eq_some h
  obtain ⟨sp, hsp, h3⟩ := List.exists_of_findSome?_eq_some h2
  exact ⟨t, ht, sp, hsp, h3⟩

/-- `typeCandidate` success means both DRC lookups succeeded and the
per-type search found an optimum. -/
lemma typeCandidate_some (drc : String → ℤ → Bool → Option ViaDrcInfo) (bd td : Dir)
    (wBox hBox : ℤ) (ext : Bool) (tw : String × ℤ) (opt : PerTypeOpt)
    (h : typeCandidate drc bd td wBox hBox ext tw = some opt) :
    ∃ infoB infoT, drc tw.1 (if bd = Dir.x then hBox else wBox) true = some infoB ∧
      drc tw.1 (if td = Dir.x then hBox else wBox) false = some infoT ∧
      perTypeSearch ext wBox hBox bd td infoB infoT = some opt := by
  unfold typeCandidate at h
  cases hB : drc tw.1 (if bd = Dir.x then hBox else wBox) true with
  | none =>
    rw [hB] at h
    exact Option.noConfusion h
  | some infoB =>
    cases hT : drc tw.1 (if td = Dir.x then hBox else wBox) false with
    | none =>
      rw [hB, hT] at h
      exact Option.noConfusion h
    | some infoT =>
      rw [hB, hT] at h
      exact ⟨infoB, infoT, rfl, rfl, h⟩

/-- A passing enclosure with non-negative components bounds the array. -/
lemma encPass_bounds (extend : Bool) (wBox hBox : ℤ) (mdir : Dir) (wArr hArr : ℤ)
    (e : ℤ × ℤ) (hp : encPass extend wBox hBox mdir wArr hArr e)
    (h1 : 0 ≤ e.1) (h2 : 0 ≤ e.2) :
    (mdir = Dir.y → wArr ≤ wBox) ∧ (mdir = Dir.x → hArr ≤ hBox) ∧
    (extend = false → wArr ≤ wBox ∧ hArr ≤ hBox) := by
  unfold encPass at hp
  cases mdir with
  | y =>
    simp at hp
    obtain ⟨hpA, hpB⟩ := hp
    refine ⟨fun _ => by omega, fun h => absurd h (by simp), fun hext => ?_⟩
    rcases hpB with htrue | hB
    · rw [hext] at htrue
      exact absurd htrue (by simp)
    · constructor <;> omega
  | x =>
    simp at hp
    obtain ⟨hpA, hpB⟩ := hp
    refine ⟨fun h => absurd h (by simp), fun _ => by omega, fun hext => ?_⟩
    rcases hpB with htrue | hB
    · rw [hext] at htrue
      exact absurd htrue (by simp)
    · constructor <;> omega

/-- C4: any successful `get_best_via_array` result, under non-negative
enclosure rules, has its array extent within the box on each axis that is
perpendicular to a layer's wire direction, and on both axes when `extend`
is unset — only a wire-direction (extension) axis may exceed the box, and
only with `extend` set. -/
theorem claim_C4 (drc : String → ℤ → Bool → Option ViaDrcInfo)
    (viaTypes : List (String × ℤ)) (bd td : Dir) (wBox hBox : ℤ) (ext : Bool)
    (res : ℚ) (r : ViaArrayResult)
    (hr : get_best_via_array drc viaTypes bd td wBox hBox ext res = some r)
    (hEnc : ∀ t mw b info, drc t mw b = some info →
      (∀ e ∈ info.enc, 0 ≤ e.1 ∧ 0 ≤ e.2) ∧ (∀ e ∈ info.arrEnc, 0 ≤ e.1 ∧ 0 ≤ e.2)) :
    (ext = false → r.viaArrDim.1 ≤ wBox ∧ r.viaArrDim.2 ≤ hBox) ∧
    (bd = Dir.y → r.viaArrDim.1 ≤ wBox) ∧ (bd = Dir.x → r.viaArrDim.2 ≤ hBox) ∧
    (td = Dir.y → r.viaArrDim.1 ≤ wBox) ∧ (td = Dir.x → r.viaArrDim.2 ≤ hBox) := by
  unfold get_best_via_array at hr
  cases haux : get_best_via_array_aux drc viaTypes bd td wBox hBox ext res with
  | none =>
    rw [haux] at hr
    exact Option.noConfusion hr
  | some s =>
    rw [haux] at hr
    simp only [Option.map_some'] at hr
    injection hr with hr
    unfold get_best_via_array_aux at haux
    rcases foldl_step_member drc bd td wBox hBox ext res viaTypes none s haux with
      hinit | ⟨tw, htw, infoB, opt, hB, hcand, hs⟩
    · exact Option.noConfusion hinit
    · obtain ⟨infoB', infoT, hB', hT, hpts⟩ :=
        typeCandidate_some drc bd td wBox hBox ext tw opt hcand
      have hBB : infoB' = infoB := by
        rw [hB] at hB'
        exact (Option.some.inj hB').symm
      subst hBB
      obtain ⟨t, -, sp, -, htc⟩ := perTypeSearch_some ext wBox hBox bd td infoB' infoT opt hpts
      obtain ⟨-, hadim, -, ⟨eB, heB, hpB⟩, ⟨eT, heT, hpT⟩⟩ :=
        tryCombo_some ext wBox hBox bd td infoB'.enc infoB'.arrEnc infoB'.arrTest
          infoT.enc infoT.arrEnc infoT.arrTest infoB'.dim t.2.1 t.2.2 sp.1 sp.2 opt htc
      have hadim' : r.viaArrDim =
          (t.2.1 * (sp.1 + infoB'.dim.1) - sp.1, t.2.2 * (sp.2 + infoB'.dim.2) - sp.2) := by
        rw [← hr, hs]
        exact hadim
      have heBnn : 0 ≤ eB.1 ∧ 0 ≤ eB.2 := by
        rcases mem_totEncFor infoB'.enc infoB'.arrEnc infoB'.arrTest t.2.1 t.2.2 eB heB with hm | hm
        · exact (hEnc tw.1 (if bd = Dir.x then hBox else wBox) true infoB' hB').1 eB hm
        · exact (hEnc tw.1 (if bd = Dir.x then hBox else wBox) true infoB' hB').2 eB hm
      have heTnn : 0 ≤ eT.1 ∧ 0 ≤ eT.2 := by
        rcases mem_totEncFor infoT.enc infoT.arrEnc infoT.arrTest t.2.1 t.2.2 eT heT with hm | hm
        · exact (hEnc tw.1 (if td = Dir.x then hBox else wBox) false infoT hT).1 eT hm
        · exact (hEnc tw.1 (if td = Dir.x then hBox else wBox) false infoT hT).2 eT hm
      have hBbounds := encPass_bounds ext wBox hBox bd _ _ eB hpB heBnn.1 heBnn.2
      have hTbounds := encPass_bounds ext wBox hBox td _ _ eT hpT heTnn.1 heTnn.2
      rw [hadim']
      refine ⟨?_, ?_, ?_, ?_, ?_⟩
      · intro hext
        exact (hBbounds.2.2 hext)
      · intro hbd
        exact hBbounds.1 hbd
      · intro hbd
        exact hBbounds.2.1 hbd
      · intro htd
        exact hTbounds.1 htd
      · intro htd
        exact hTbounds.2.1 htd

/-- The scenario-A result record. -/
def vaResultA : ViaArrayResult := ⟨(3, 3), [(10, 10), (10, 10)], "square", (2, 2), (1, 1), (8, 8)⟩

/-- Witness for C4 at scenario A's concrete inputs. -/
theorem claim_C4_witness :
    ((true : Bool) = false → vaResultA.viaArrDim.1 ≤ 10 ∧ vaResultA.viaArrDim.2 ≤ 10) ∧
    (Dir.x = Dir.y → vaResultA.viaArrDim.1 ≤ 10) ∧
    (Dir.x = Dir.x → vaResultA.viaArrDim.2 ≤ 10) ∧
    (Dir.y = Dir.y → vaResultA.viaArrDim.1 ≤ 10) ∧
    (Dir.y = Dir.x → vaResultA.viaArrDim.2 ≤ 10) :=
  claim_C4 drcA [("square", 1)] Dir.x Dir.y 10 10 true 1 vaResultA (by decide)
    (by
      intro t mw b info h
      unfold drcA at h
      by_cases ht : t = "square"
      · rw [if_pos ht] at h
        injection h with h
        rw [← h]
        exact ⟨by decide, by decide⟩
      · rw [if_neg ht] at h
        exact Option.noConfusion h)

/-! ## C8 — box-growth monotonicity machinery -/

lemma mem_intRange1 (n x : ℤ) : x ∈ intRange1 n ↔ 1 ≤ x ∧ x ≤ n := by
  unfold intRange1
  constructor
  · intro hx
    obtain ⟨k, hk, hkx⟩ := List.mem_map.mp hx
    rw [List.mem_range, Int.lt_toNat] at hk
    have hkx' : (k : ℤ) + 1 = x := hkx
    subst hkx'
    omega
  · rintro ⟨h1, h2⟩
    refine List.mem_map.mpr ⟨(x - 1).toNat, ?_, ?_⟩
    · rw [List.mem_range]
      exact (Int.toNat_lt_toNat (by omega)).mpr (by omega)
    · show ((x - 1).toNat : ℤ) + 1 = x
      rw [Int.toNat_of_nonneg (by omega)]
      omega

lemma mem_nxyRaw (nxMax nyMax : ℤ) (v : ℤ × ℤ × ℤ) :
    v ∈ nxyRaw nxMax nyMax ↔
      ∃ a b : ℤ, 1 ≤ a ∧ a ≤ nxMax ∧ 1 ≤ b ∧ b ≤ nyMax ∧ v = (a * b, a, b) := by
  unfold nxyRaw
  constructor
  · intro hv
    obtain ⟨a, ha, hv2⟩ := List.mem_flatMap.mp hv
    obtain ⟨b, hb, hv3⟩ := List.mem_map.mp hv2
    rw [mem_intRange1] at ha hb
    exact ⟨a, b, ha.1, ha.2, hb.1, hb.2, hv3.symm⟩
  · rintro ⟨a, b, h1, h2, h3, h4, rfl⟩
    exact List.mem_flatMap.mpr ⟨a, (mem_intRange1 _ _).mpr ⟨h1, h2⟩,
      List.mem_map.mpr ⟨b, (mem_intRange1 _ _).mpr ⟨h3, h4⟩, rfl⟩⟩

/-- Every generated triple's first component is the product of the other
two. -/
lemma nxyRaw_count (nxMax nyMax : ℤ) (v : ℤ × ℤ × ℤ) (hv : v ∈ nxyRaw nxMax nyMax) :
    v.1 = v.2.1 * v.2.2 := by
  obtain ⟨a, b, -, -, -, -, rfl⟩ := (mem_nxyRaw nxMax nyMax v).mp hv
  rfl

lemma mem_nxyList (nxMax nyMax : ℤ) (v : ℤ × ℤ × ℤ) :
    v ∈ nxyList nxMax nyMax ↔ v ∈ nxyRaw nxMax nyMax := by
  unfold nxyList
  exact List.mem_insertionSort descTriple

lemma nxyList_sorted (nxMax nyMax : ℤ) : (nxyList nxMax nyMax).Sorted descTriple :=
  List.sorted_insertionSort descTriple (nxyRaw nxMax nyMax)

/-- In a list sorted by descending count, the first success dominates the
count of any member on which `f` fires. -/
lemma findSome?_sorted_bound {β : Type} (f : ℤ × ℤ × ℤ → Option β) :
    ∀ l : List (ℤ × ℤ × ℤ), l.Sorted descTriple →
      ∀ x ∈ l, (f x).isSome = true →
      ∃ t r, t ∈ l ∧ f t = some r ∧ l.findSome? f = some r ∧ x.1 ≤ t.1 := by
  intro l
  induction l with
  | nil =>
    intro _ x hx
    exact absurd hx (List.not_mem_nil x)
  | cons z rest ih =>
    intro hs x hx hfx
    rcases hz : f z with _ | r
    · have hxrest : x ∈ rest := by
        rcases List.mem_cons.mp hx with rfl | h
        · rw [hz] at hfx
          exact absurd hfx (by simp)
        · exact h
      obtain ⟨t, r, ht, hft, hfind, hle⟩ :=
        ih (List.sorted_cons.mp hs).2 x hxrest hfx
      refine ⟨t, r, List.mem_cons_of_mem _ ht, hft, ?_, hle⟩
      rw [List.findSome?_cons, hz]
      exact hfind
    · have hxz : x.1 ≤ z.1 := by
        rcases List.mem_cons.mp hx with rfl | h
        · exact le_refl _
        · have hd := (List.sorted_cons.mp hs).1 x h
          unfold descTriple at hd
          omega
      refine ⟨z, r, List.mem_cons_self z rest, hz, ?_, hxz⟩
      rw [List.findSome?_cons, hz]

/-- The enclosure test only relaxes when the box grows. -/
lemma encPass_mono (extend : Bool) (w1 h1 w2 h2 : ℤ) (mdir : Dir) (wArr hArr : ℤ)
    (e : ℤ × ℤ) (hw : w1 ≤ w2) (hh : h1 ≤ h2)
    (hp : encPass extend w1 h1 mdir wArr hArr e) :
    encPass extend w2 h2 mdir wArr hArr e := by
  unfold encPass at *
  obtain ⟨hA, hB⟩ := hp
  refine ⟨by cases mdir <;> simp_all <;> omega, ?_⟩
  rcases hB with ht | hB
  · exact Or.inl ht
  · exact Or.inr (by cases mdir <;> simp_all <;> omega)

/-- If both layers can pass, the combination check succeeds. -/
lemma tryCombo_isSome (extend : Bool) (wBox hBox : ℤ) (bd td : Dir)
    (encB arrEncB : List (ℤ × ℤ)) (arrTestB : Option (ℤ → ℤ → Bool))
    (encT arrEncT : List (ℤ × ℤ)) (arrTestT : Option (ℤ → ℤ → Bool))
    (dim : ℤ × ℤ) (nx ny spx spy : ℤ)
    (hB : ∃ e ∈ totEncFor encB arrEncB arrTestB nx ny,
      encPass extend wBox hBox bd (nx * (spx + dim.1) - spx) (ny * (spy + dim.2) - spy) e)
    (hT : ∃ e ∈ totEncFor encT arrEncT arrTestT nx ny,
      encPass extend wBox hBox td (nx * (spx + dim.1) - spx) (ny * (spy + dim.2) - spy) e) :
    (tryCombo extend wBox hBox bd td encB arrEncB arrTestB encT arrEncT arrTestT
      dim nx ny spx spy).isSome = true := by
  have h1 := (layerMdim_isSome_iff extend wBox hBox bd (totEncFor encB arrEncB arrTestB nx ny)
    (nx * (spx + dim.1) - spx) (ny * (spy + dim.2) - spy)).mpr hB
  have h2 := (layerMdim_isSome_iff extend wBox hBox td (totEncFor encT arrEncT arrTestT nx ny)
    (nx * (spx + dim.1) - spx) (ny * (spy + dim.2) - spy)).mpr hT
  unfold tryCombo
  cases hB' : layerMdim extend wBox hBox bd (totEncFor encB arrEncB arrTestB nx ny)
      (nx * (spx + dim.1) - spx) (ny * (spy + dim.2) - spy) with
  | none =>
    rw [hB'] at h1
    exact absurd h1 (by simp)
  | some mB =>
    cases hT' : layerMdim extend wBox hBox td (totEncFor encT arrEncT arrTestT nx ny)
        (nx * (spx + dim.1) - spx) (ny * (spy + dim.2) - spy) with
    | none =>
      rw [hT'] at h2
      exact absurd h2 (by simp)
    | some mT => rfl

/-- Growing the box keeps the per-type search successful and never shrinks
the found `nx * ny`: the old configuration is still in the (longer) sorted
candidate list and still feasible, so the first success can only sit at an
equal or larger count. -/
lemma perTypeSearch_mono (ext : Bool) (w1 h1 w2 h2 : ℤ) (bd td : Dir)
    (infoB infoT : ViaDrcInfo) (opt1 : PerTypeOpt)
    (hw : w1 ≤ w2) (hh : h1 ≤ h2) (hpitch : pitchOk infoB)
    (h1s : perTypeSearch ext w1 h1 bd td infoB infoT = some opt1) :
    ∃ opt2, perTypeSearch ext w2 h2 bd td infoB infoT = some opt2 ∧
      opt1.nxy.1 * opt1.nxy.2 ≤ opt2.nxy.1 * opt2.nxy.2 := by
  obtain ⟨t, ht, sp', hsp', htc⟩ := perTypeSearch_some ext w1 h1 bd td infoB infoT opt1 h1s
  obtain ⟨hpx, hpy⟩ := hpitch
  have hN : Int.fdiv (w1 + (spFloor infoB.sp (defaultSp2 infoB.sp infoB.sp2List)
        (defaultSp3 (defaultSp2 infoB.sp infoB.sp2List) infoB.sp3List)).1)
        (infoB.dim.1 + (spFloor infoB.sp (defaultSp2 infoB.sp infoB.sp2List)
        (defaultSp3 (defaultSp2 infoB.sp infoB.sp2List) infoB.sp3List)).1) ≤
      Int.fdiv (w2 + (spFloor infoB.sp (defaultSp2 infoB.sp infoB.sp2List)
        (defaultSp3 (defaultSp2 infoB.sp infoB.sp2List) infoB.sp3List)).1)
        (infoB.dim.1 + (spFloor infoB.sp (defaultSp2 infoB.sp infoB.sp2List)
        (defaultSp3 (defaultSp2 infoB.sp infoB.sp2List) infoB.sp3List)).1) := by
    rw [Int.fdiv_eq_ediv _ (le_of_lt hpx), Int.fdiv_eq_ediv _ (le_of_lt hpx)]
    exact Int.ediv_le_ediv hpx (by omega)
  have hM : Int.fdiv (h1 + (spFloor infoB.sp (defaultSp2 infoB.sp infoB.sp2List)
        (defaultSp3 (defaultSp2 infoB.sp infoB.sp2List) infoB.sp3List)).2)
        (infoB.dim.2 + (spFloor infoB.sp (defaultSp2 infoB.sp infoB.sp2List)
        (defaultSp3 (defaultSp2 infoB.sp infoB.sp2List) infoB.sp3List)).2) ≤
      Int.fdiv (h2 + (spFloor infoB.sp (defaultSp2 infoB.sp infoB.sp2List)
        (defaultSp3 (defaultSp2 infoB.sp infoB.sp2List) infoB.sp3List)).2)
        (infoB.dim.2 + (spFloor infoB.sp (defaultSp2 infoB.sp infoB.sp2List)
        (defaultSp3 (defaultSp2 infoB.sp infoB.sp2List) infoB.sp3List)).2) := by
    rw [Int.fdiv_eq_ediv _ (le_of_lt hpy), Int.fdiv_eq_ediv _ (le_of_lt hpy)]
    exact Int.ediv_le_ediv hpy (by omega)
  obtain ⟨a, b, ha1, ha2, hb1, hb2, htab⟩ :=
    (mem_nxyRaw _ _ t).mp ((mem_nxyList _ _ t).mp ht)
  have ht2 : t ∈ nxyList
      (Int.fdiv (w2 + (spFloor infoB.sp (defaultSp2 infoB.sp infoB.sp2List)
        (defaultSp3 (defaultSp2 infoB.sp infoB.sp2List) infoB.sp3List)).1)
        (infoB.dim.1 + (spFloor infoB.sp (defaultSp2 infoB.sp infoB.sp2List)
        (defaultSp3 (defaultSp2 infoB.sp infoB.sp2List) infoB.sp3List)).1))
      (Int.fdiv (h2 + (spFloor infoB.sp (defaultSp2 infoB.sp infoB.sp2List)
        (defaultSp3 (defaultSp2 infoB.sp infoB.sp2List) infoB.sp3List)).2)
        (infoB.dim.2 + (spFloor infoB.sp (defaultSp2 infoB.sp infoB.sp2List)
        (defaultSp3 (defaultSp2 infoB.sp infoB.sp2List) infoB.sp3List)).2)) := by
    rw [mem_nxyList, mem_nxyRaw]
    exact ⟨a, b, ha1, by omega, hb1, by omega, htab⟩
  obtain ⟨-, -, -, hPB, hPT⟩ := tryCombo_some ext w1 h1 bd td infoB.enc infoB.arrEnc
    infoB.arrTest infoT.enc infoT.arrEnc infoT.arrTest infoB.dim t.2.1 t.2.2 sp'.1 sp'.2
    opt1 htc
  have hcombo2 : (tryCombo ext w2 h2 bd td infoB.enc infoB.arrEnc infoB.arrTest
      infoT.enc infoT.arrEnc infoT.arrTest infoB.dim t.2.1 t.2.2 sp'.1 sp'.2).isSome = true := by
    apply tryCombo_isSome
    · obtain ⟨e, he, hp⟩ := hPB
      exact ⟨e, he, encPass_mono ext w1 h1 w2 h2 bd _ _ e hw hh hp⟩
    · obtain ⟨e, he, hp⟩ := hPT
      exact ⟨e, he, encPass_mono ext w1 h1 w2 h2 td _ _ e hw hh hp⟩
  have hf2 : ((spComboFor infoB.sp (defaultSp2 infoB.sp infoB.sp2List)
      (defaultSp3 (defaultSp2 infoB.sp infoB.sp2List) infoB.sp3List) t.2.1 t.2.2).findSome?
        fun s => tryCombo ext w2 h2 bd td infoB.enc infoB.arrEnc infoB.arrTest
          infoT.enc infoT.arrEnc infoT.arrTest infoB.dim t.2.1 t.2.2 s.1 s.2).isSome = true :=
    List.findSome?_isSome_iff.mpr ⟨sp', hsp', hcombo2⟩
  have hres := findSome?_sorted_bound
    (fun u => (spComboFor infoB.sp (defaultSp2 infoB.sp infoB.sp2List)
      (defaultSp3 (defaultSp2 infoB.sp infoB.sp2List) infoB.sp3List) u.2.1 u.2.2).findSome?
        fun s => tryCombo ext w2 h2 bd td infoB.enc infoB.arrEnc infoB.arrTest
          infoT.enc infoT.arrEnc infoT.arrTest infoB.dim u.2.1 u.2.2 s.1 s.2)
    (nxyList
      (Int.fdiv (w2 + (spFloor infoB.sp (defaultSp2 infoB.sp infoB.sp2List)
        (defaultSp3 (defaultSp2 infoB.sp infoB.sp2List) infoB.sp3List)).1)
        (infoB.dim.1 + (spFloor infoB.sp (defaultSp2 infoB.sp infoB.sp2List)
        (defaultSp3 (defaultSp2 infoB.sp infoB.sp2List) infoB.sp3List)).1))
      (Int.fdiv (h2 + (spFloor infoB.sp (defaultSp2 infoB.sp infoB.sp2List)
        (defaultSp3 (defaultSp2 infoB.sp infoB.sp2List) infoB.sp3List)).2)
        (infoB.dim.2 + (spFloor infoB.sp (defaultSp2 infoB.sp infoB.sp2List)
        (defaultSp3 (defaultSp2 infoB.sp infoB.sp2List) infoB.sp3List)).2)))
    (nxyList_sorted _ _) t ht2 hf2
  obtain ⟨t', opt2, ht', hft', hfind, hle⟩ := hres
  have hPS : perTypeSearch ext w2 h2 bd td infoB infoT =
      (nxyList
        (Int.fdiv (w2 + (spFloor infoB.sp (defaultSp2 infoB.sp infoB.sp2List)
        (defaultSp3 (defaultSp2 infoB.sp infoB.sp2List) infoB.sp3List)).1)
        (infoB.dim.1 + (spFloor infoB.sp (defaultSp2 infoB.sp infoB.sp2List)
        (defaultSp3 (defaultSp2 infoB.sp infoB.sp2List) infoB.sp3List)).1))
        (Int.fdiv (h2 + (spFloor infoB.sp (defaultSp2 infoB.sp infoB.sp2List)
        (defaultSp3 (defaultSp2 infoB.sp infoB.sp2List) infoB.sp3List)).2)
        (infoB.dim.2 + (spFloor infoB.sp (defaultSp2 infoB.sp infoB.sp2List)
        (defaultSp3 (defaultSp2 infoB.sp infoB.sp2List) infoB.sp3List)).2))).findSome?
      (fun u => (spComboFor infoB.sp (defaultSp2 infoB.sp infoB.sp2List)
      (defaultSp3 (defaultSp2 infoB.sp infoB.sp2List) infoB.sp3List) u.2.1 u.2.2).findSome?
        fun s => tryCombo ext w2 h2 bd td infoB.enc infoB.arrEnc infoB.arrTest
          infoT.enc infoT.arrEnc infoT.arrTest infoB.dim u.2.1 u.2.2 s.1 s.2) := rfl
  refine ⟨opt2, by rw [hPS]; exact hfind, ?_⟩
  obtain ⟨sp'', -, htc2⟩ := List.exists_of_findSome?_eq_some hft'
  have hnxy1 : opt1.nxy = (t.2.1, t.2.2) :=
    (tryCombo_some ext w1 h1 bd td infoB.enc infoB.arrEnc infoB.arrTest infoT.enc
      infoT.arrEnc infoT.arrTest infoB.dim t.2.1 t.2.2 sp'.1 sp'.2 opt1 htc).1
  have hnxy2 : opt2.nxy = (t'.2.1, t'.2.2) :=
    (tryCombo_some ext w2 h2 bd td infoB.enc infoB.arrEnc infoB.arrTest infoT.enc
      infoT.arrEnc infoT.arrTest infoB.dim t'.2.1 t'.2.2 sp''.1 sp''.2 opt2 htc2).1
  have hc1 : t.1 = t.2.1 * t.2.2 := nxyRaw_count _ _ t ((mem_nxyList _ _ t).mp ht)
  have hc2 : t'.1 = t'.2.1 * t'.2.2 := nxyRaw_count _ _ t' ((mem_nxyList _ _ t').mp ht')
  rw [hnxy1, hnxy2]
  show t.2.1 * t.2.2 ≤ t'.2.1 * t'.2.2
  omega

/-- `typeCandidate` is monotone in the box when the provider ignores the
metal-width argument and all pitches are positive. -/
lemma typeCandidate_mono (drc : String → ℤ → Bool → Option ViaDrcInfo) (bd td : Dir)
    (w1 h1 w2 h2 : ℤ) (ext : Bool) (tw : String × ℤ) (opt1 : PerTypeOpt)
    (hmw : ∀ t m m' b, drc t m b = drc t m' b)
    (hw : w1 ≤ w2) (hh : h1 ≤ h2)
    (hpitch : ∀ t m b info, drc t m b = some info → pitchOk info)
    (h1s : typeCandidate drc bd td w1 h1 ext tw = some opt1) :
    ∃ opt2, typeCandidate drc bd td w2 h2 ext tw = some opt2 ∧
      opt1.nxy.1 * opt1.nxy.2 ≤ opt2.nxy.1 * opt2.nxy.2 := by
  obtain ⟨infoB, infoT, hB, hT, hpts⟩ := typeCandidate_some drc bd td w1 h1 ext tw opt1 h1s
  obtain ⟨opt2, hpts2, hle⟩ := perTypeSearch_mono ext w1 h1 w2 h2 bd td infoB infoT opt1
    hw hh (hpitch _ _ _ _ hB) hpts
  refine ⟨opt2, ?_, hle⟩
  unfold typeCandidate
  rw [show drc tw.1 (if bd = Dir.x then h2 else w2) true = some infoB from
      (hmw tw.1 (if bd = Dir.x then h2 else w2) (if bd = Dir.x then h1 else w1) true).trans hB,
    show drc tw.1 (if td = Dir.x then h2 else w2) false = some infoT from
      (hmw tw.1 (if td = Dir.x then h2 else w2) (if td = Dir.x then h1 else w1) false).trans hT]
  exact hpts2

/-- A set running best survives one step. -/
lemma stepType_some_of_some (drc : String → ℤ → Bool → Option ViaDrcInfo) (bd td : Dir)
    (wBox hBox : ℤ) (ext : Bool) (res : ℚ) (b : BestState) (tw : String × ℤ) :
    ∃ s, stepType drc bd td wBox hBox ext res (some b) tw = some s := by
  rcases hcand : typeCandidate drc bd td wBox hBox ext tw with _ | opt
  · exact ⟨b, stepType_of_none drc bd td wBox hBox ext res (some b) tw hcand⟩
  · obtain ⟨infoB, -, hstep⟩ :=
      stepType_of_cand drc bd td wBox hBox ext res (some b) tw opt hcand
    rcases updateBest_some_cases res b
        ⟨tw.2 * (opt.nxy.1 * opt.nxy.2),
         ⟨opt.nxy, opt.mdimList, tw.1, infoB.dim, opt.vsp, opt.adim⟩⟩ with hu | hu
    · exact ⟨_, hstep.trans hu⟩
    · exact ⟨b, hstep.trans hu⟩

/-- If some via type is accepted, the fold ends with a result. -/
lemma foldl_step_isSome (drc : String → ℤ → Bool → Option ViaDrcInfo) (bd td : Dir)
    (wBox hBox : ℤ) (ext : Bool) (res : ℚ) (l : List (String × ℤ)) :
    ∀ init : Option BestState,
      (init.isSome = true ∨ ∃ tw ∈ l, ∃ opt, typeCandidate drc bd td wBox hBox ext tw = some opt) →
      ∃ s, l.foldl (stepType drc bd td wBox hBox ext res) init = some s := by
  induction l with
  | nil =>
    rintro init (hinit | ⟨tw, htw, -⟩)
    · exact ⟨init.get hinit, by simp⟩
    · exact absurd htw (List.not_mem_nil tw)
  | cons tw' rest ih =>
    rintro init (hinit | ⟨tw, htw, opt, hopt⟩)
    · rw [List.foldl_cons]
      rcases Option.isSome_iff_exists.mp hinit with ⟨b, rfl⟩
      obtain ⟨s0, hs0⟩ := stepType_some_of_some drc bd td wBox hBox ext res b tw'
      rw [hs0]
      exact ih (some s0) (Or.inl rfl)
    · rw [List.foldl_cons]
      rcases List.mem_cons.mp htw with rfl | hmem
      · obtain ⟨infoB, -, hstep⟩ :=
          stepType_of_cand drc bd td wBox hBox ext res init tw opt hopt
        rw [hstep]
        rcases init with _ | b
        · rw [updateBest_none_eq]
          exact ih _ (Or.inl rfl)
        · rcases updateBest_some_cases res b
              ⟨tw.2 * (opt.nxy.1 * opt.nxy.2),
               ⟨opt.nxy, opt.mdimList, tw.1, infoB.dim, opt.vsp, opt.adim⟩⟩ with hu | hu <;>
            rw [hu] <;> exact ih _ (Or.inl rfl)
      · rcases init with _ | b
        · rcases hcand' : typeCandidate drc bd td wBox hBox ext tw' with _ | opt'
          · rw [stepType_of_none drc bd td wBox hBox ext res none tw' hcand']
            exact ih none (Or.inr ⟨tw, hmem, opt, hopt⟩)
          · obtain ⟨infoB, -, hstep⟩ :=
              stepType_of_cand drc bd td wBox hBox ext res none tw' opt' hcand'
            rw [hstep, updateBest_none_eq]
            exact ih _ (Or.inl rfl)
        · obtain ⟨s0, hs0⟩ := stepType_some_of_some drc bd td wBox hBox ext res b tw'
          rw [hs0]
          exact ih _ (Or.inl rfl)

/-- C8 (amended): growing the bounding box — with the same provider
responses, non-negative weights and positive via pitches — preserves
success, and the chosen weighted count `weight * nx * ny` (the quantity
`get_best_via_array` maximizes) never decreases.  The unweighted count
`nx * ny` of the returned result can decrease (see the counterexample),
so the claim as stated is amended to the weighted count. -/
theorem claim_C8 (drc : String → ℤ → Bool → Option ViaDrcInfo)
    (viaTypes : List (String × ℤ)) (bd td : Dir) (w1 h1 w2 h2 : ℤ) (ext : Bool)
    (res : ℚ) (s1 : BestState)
    (hmw : ∀ t m m' b, drc t m b = drc t m' b)
    (hw : w1 ≤ w2) (hh : h1 ≤ h2)
    (hwt : ∀ tw ∈ viaTypes, 0 ≤ tw.2)
    (hpitch : ∀ t m b info, drc t m b = some info → pitchOk info)
    (h1s : get_best_via_array_aux drc viaTypes bd td w1 h1 ext res = some s1) :
    ∃ s2, get_best_via_array_aux drc viaTypes bd td w2 h2 ext res = some s2 ∧
      s1.num ≤ s2.num ∧
      get_best_via_array drc viaTypes bd td w2 h2 ext res = some s2.result := by
  unfold get_best_via_array_aux at h1s
  rcases foldl_step_member drc bd td w1 h1 ext res viaTypes none s1 h1s with
    hinit | ⟨tw, htw, infoB, opt1, hB, hcand, hs1⟩
  · exact Option.noConfusion hinit
  · obtain ⟨opt2, hcand2, hle⟩ := typeCandidate_mono drc bd td w1 h1 w2 h2 ext tw opt1
      hmw hw hh hpitch hcand
    obtain ⟨s2, hs2⟩ := foldl_step_isSome drc bd td w2 h2 ext res viaTypes none
      (Or.inr ⟨tw, htw, opt2, hcand2⟩)
    refine ⟨s2, by unfold get_best_via_array_aux; exact hs2, ?_, ?_⟩
    · have hupper := foldl_step_upper drc bd td w2 h2 ext res viaTypes none s2 hs2
        tw htw opt2 hcand2
      have hnum1 : s1.num = tw.2 * (opt1.nxy.1 * opt1.nxy.2) := by rw [hs1]
      rw [hnum1]
      exact le_trans (mul_le_mul_of_nonneg_left hle (hwt tw htw)) hupper
    · unfold get_best_via_array
      rw [show get_best_via_array_aux drc viaTypes bd td w2 h2 ext res = some s2 from
        by unfold get_best_via_array_aux; exact hs2]
      rfl

/-- Witness for C8 at scenario A's inputs, growing the box from 10×10 to
12×10. -/
theorem claim_C8_witness :
    ∃ s2, get_best_via_array_aux drcA [("square", 1)] Dir.x Dir.y 12 10 true 1 = some s2 ∧
      (⟨9, vaResultA⟩ : BestState).num ≤ s2.num ∧
      get_best_via_array drcA [("square", 1)] Dir.x Dir.y 12 10 true 1 = some s2.result :=
  claim_C8 drcA [("square", 1)] Dir.x Dir.y 10 10 12 10 true 1 ⟨9, vaResultA⟩
    (fun _ _ _ _ => rfl) (by decide) (by decide) (by decide)
    (by
      intro t m b info h
      unfold drcA at h
      by_cases ht : t = "square"
      · rw [if_pos ht] at h
        injection h with h
        rw [← h]
        exact ⟨by decide, by decide⟩
      · rw [if_neg ht] at h
        exact Option.noConfusion h)
    (by decide)

/-- C8 counterexample: with fixed rules (`square` weight 1, pitch 3;
`vrect` weight 3, pitch 8) and enclosure `(0, 0)`, growing the box from
11×2 to 15×2 moves the optimum from a 4×1 `square` array (4 vias) to a
2×1 `vrect` array (2 vias): the chosen total via count decreases. -/
theorem claim_C8_counterexample :
    (11 : ℤ) ≤ 15 ∧ (2 : ℤ) ≤ 2 ∧
    get_best_via_array drcM viaTypesM Dir.x Dir.y 11 2 true 1 =
      some ⟨(4, 1), [(11, 2), (11, 2)], "square", (2, 2), (1, 1), (11, 2)⟩ ∧
    get_best_via_array drcM viaTypesM Dir.x Dir.y 15 2 true 1 =
      some ⟨(2, 1), [(15, 2), (15, 2)], "vrect", (7, 2), (1, 1), (15, 2)⟩ ∧
    ¬ ((4 : ℤ) * 1 ≤ 2 * 1) := by
  exact ⟨by decide, by decide, by decide, by decide, by decide⟩

/-! ## C6 — EM limit semantics -/

/-- A single current kind's violation test `0.0 < limit < target` holds
exactly for a finite positive limit below the target. -/
lemma finite_pos_lt_iff (l : WithTop ℚ) (t : ℚ) :
    (0 < l ∧ l < (t : WithTop ℚ)) ↔ ∃ x : ℚ, l = (x : WithTop ℚ) ∧ 0 < x ∧ x < t := by
  cases l with
  | top =>
    constructor
    · rintro ⟨-, htop⟩
      exact absurd htop (WithTop.not_top_lt _)
    · rintro ⟨x, hx, -⟩
      exact absurd hx.symm (WithTop.coe_ne_top)
  | coe x =>
    constructor
    · rintro ⟨h0, hlt⟩
      exact ⟨x, rfl, WithTop.coe_pos.mp h0, WithTop.coe_lt_coe.mp hlt⟩
    · rintro ⟨y, hy, h0, hlt⟩
      rw [WithTop.coe_inj.mp hy]
      exact ⟨WithTop.coe_pos.mpr h0, WithTop.coe_lt_coe.mpr hlt⟩

/-- C6: a candidate is declared EM-infeasible iff some provider limit is a
finite value strictly between zero and the spec divided by the parallel
count; a zero or unbounded (`⊤`, modelling `float('inf')`) limit never
triggers a violation.  `design_resistor` applies `emViolated` with the
divided specs both at the pre-check (lines 1005-1007, via `nparFeasible`,
limits evaluated at the maximum width) and inside the width search
(lines 1018-1022, via `innerWidthSearch`): the final conjunct shows any
width/length pair the inner search returns passed the check. -/
theorem claim_C6 (lims : WithTop ℚ × WithTop ℚ × WithTop ℚ) (idcPar iacRmsPar iacPeakPar : ℚ) :
    (emViolated lims idcPar iacRmsPar iacPeakPar = true ↔
      ((∃ x : ℚ, lims.1 = (x : WithTop ℚ) ∧ 0 < x ∧ x < idcPar) ∨
       (∃ x : ℚ, lims.2.1 = (x : WithTop ℚ) ∧ 0 < x ∧ x < iacRmsPar) ∨
       (∃ x : ℚ, lims.2.2 = (x : WithTop ℚ) ∧ 0 < x ∧ x < iacPeakPar))) ∧
    ((lims.1 = 0 ∨ lims.1 = ⊤) → ¬(0 < lims.1 ∧ lims.1 < (idcPar : WithTop ℚ))) ∧
    ((lims.2.1 = 0 ∨ lims.2.1 = ⊤) → ¬(0 < lims.2.1 ∧ lims.2.1 < (iacRmsPar : WithTop ℚ))) ∧
    ((lims.2.2 = 0 ∨ lims.2.2 = ⊤) → ¬(0 < lims.2.2 ∧ lims.2.2 < (iacPeakPar : WithTop ℚ))) ∧
    (∀ (T : ResTech) (resTarg idc iacRms iacPeak : ℚ) (wminU wmaxU lminU npar : ℤ),
      emViolated (T.em T.wmaxPhys (-1)) (idc / (npar : ℚ)) (iacRms / (npar : ℚ))
          (iacPeak / (npar : ℚ)) = true →
      nparFeasible T resTarg idc iacRms iacPeak wminU wmaxU lminU npar = none) ∧
    (∀ (T : ResTech) (resTargPar idcP iacRmsP iacPeakP : ℚ) (wminU wmaxU lminU w l : ℤ),
      innerWidthSearch T resTargPar idcP iacRmsP iacPeakP wminU wmaxU lminU = some (w, l) →
      emViolated (T.em ((w : ℚ) * T.resolution) ((l : ℚ) * T.resolution))
        idcP iacRmsP iacPeakP = false) := by
  obtain ⟨l1, l2, l3⟩ := lims
  refine ⟨?_, ?_, ?_, ?_, ?_, ?_⟩
  · simp only [emViolated, Bool.or_eq_true, decide_eq_true_eq]
    rw [finite_pos_lt_iff, finite_pos_lt_iff, finite_pos_lt_iff, or_assoc]
  · rintro (h | h) ⟨h0, hlt⟩ <;> rw [h] at h0 hlt
    · exact lt_irrefl _ h0
    · exact WithTop.not_top_lt _ hlt
  · rintro (h | h) ⟨h0, hlt⟩ <;> rw [h] at h0 hlt
    · exact lt_irrefl _ h0
    · exact WithTop.not_top_lt _ hlt
  · rintro (h | h) ⟨h0, hlt⟩ <;> rw [h] at h0 hlt
    · exact lt_irrefl _ h0
    · exact WithTop.not_top_lt _ hlt
  · intro T resTarg idc iacRms iacPeak wminU wmaxU lminU npar hviol
    simp only [nparFeasible, hviol, if_true]
  · intro T resTargPar idcP iacRmsP iacPeakP wminU wmaxU lminU w l hsome
    obtain ⟨wc, -, hwc⟩ := List.exists_of_findSome?_eq_some hsome
    by_cases hlen : (⌈resTargPar / T.rsq * (wc : ℚ)⌉ < max lminU ⌈T.minNsq * (wc : ℚ)⌉)
    · rw [if_pos hlen] at hwc
      exact Option.noConfusion hwc
    · rw [if_neg hlen] at hwc
      by_cases hem : emViolated (T.em ((wc : ℚ) * T.resolution)
          ((⌈resTargPar / T.rsq * (wc : ℚ)⌉ : ℚ) * T.resolution)) idcP iacRmsP iacPeakP = true
      · rw [if_pos hem] at hwc
        exact Option.noConfusion hwc
      · rw [if_neg hem] at hwc
        injection hwc with hwc
        rw [Prod.mk.injEq] at hwc
        obtain ⟨h1, h2⟩ := hwc
        subst h1
        subst h2
        simp only [Bool.not_eq_true] at hem
        exact hem

/-- Witness for C9 at the concrete configuration `(3, 2)`. -/
theorem claim_C9_witness :
    (((3 : ℤ) = 2 ∧ (2 : ℤ) = 2) ∧
      spComboFor ((1 : ℤ), (1 : ℤ)) [(2, 2)] [(3, 3)] 3 2 = [(2, 2)]) ∨
    (((2 < (3 : ℤ) ∧ 1 < (2 : ℤ)) ∨ (2 < (2 : ℤ) ∧ 1 < (3 : ℤ))) ∧
      spComboFor ((1 : ℤ), (1 : ℤ)) [(2, 2)] [(3, 3)] 3 2 = [(3, 3)]) ∨
    (((3 : ℤ) = 1 ∨ (2 : ℤ) = 1) ∧
      spComboFor ((1 : ℤ), (1 : ℤ)) [(2, 2)] [(3, 3)] 3 2 = [((1 : ℤ), (1 : ℤ))]) :=
  claim_C9 (1, 1) [(2, 2)] [(3, 3)] 3 2 (by decide) (by decide)

end BagCore
